import Mathlib

set_option maxRecDepth 40000

/-!
Verification of the `react-abi-input` core: the tuple type-signature parser
(`parseTypeSignature` / `parseTypeAndName`), the linearizer and tuple-type
expander (`linearizeAbi` / `formatTupleType`), the per-field validator
(`validateInput` / `validateSingleValue`), the value-preview formatter
(`formatTupleWithStructure` / `formatTuple`), the call assembler argument
pipeline (`combineTx` / `processNestedTuples`), and the ABI-string validator
(`validateAbi`).

Strings are embedded as lists of characters (`Str`): the JavaScript source
walks its strings character by character with explicit indices and depth
counters, and a character-list embedding turns those loops into plain
recursive functions.  JavaScript semantics used by the source (`String.prototype.trim`,
`split`, `replace`, `BigInt(string)`, `parseInt`, `JSON.parse`,
IEEE-754 double rounding of large integer literals) are modelled explicitly
below, each built from the documented semantics of the builtin.
-/

/-- Strings as character lists, matching the index-by-index walks of the
JavaScript source. -/
abbrev Str := List Char

/-- Whitespace as recognized by JavaScript `trim` (the characters that occur
in this code base). -/
def isWsChar (c : Char) : Bool :=
  c = ' ' || c = '\t' || c = '\n' || c = '\r'

/-- JavaScript `String.prototype.trim`: drop whitespace from both ends. -/
def trimStr (s : Str) : Str :=
  ((s.dropWhile isWsChar).reverse.dropWhile isWsChar).reverse

/-- JavaScript `String.prototype.split` with a single-character separator:
`"".split(sep) = [""]`, empty pieces are kept. -/
def splitChar (sep : Char) : Str → List Str
  | [] => [[]]
  | c :: rest =>
    let r := splitChar sep rest
    if c = sep then [] :: r
    else
      match r with
      | [] => [[c]]
      | h :: t => (c :: h) :: t

/-- Join a list of strings with a separator (JavaScript `Array.prototype.join`). -/
def joinSep (sep : Str) : List Str → Str
  | [] => []
  | [x] => x
  | x :: y :: xs => x ++ sep ++ joinSep sep (y :: xs)

/-- JavaScript `String.prototype.startsWith`. -/
def startsWithStr (pat s : Str) : Bool := pat.isPrefixOf s

/-- JavaScript `String.prototype.endsWith`. -/
def endsWithStr (pat s : Str) : Bool := pat.reverse.isPrefixOf s.reverse

/-- JavaScript `String.prototype.includes`. -/
def containsSub : Str → Str → Bool
  | s, pat =>
    if pat.isPrefixOf s then true
    else
      match s with
      | [] => false
      | _ :: tl => containsSub tl pat

/-- JavaScript `String.prototype.replace` with a plain-string pattern:
replaces the first occurrence only. -/
def replaceFirst : Str → Str → Str → Str
  | s, pat, rep =>
    if pat.isPrefixOf s then rep ++ s.drop pat.length
    else
      match s with
      | [] => []
      | c :: tl => c :: replaceFirst tl pat rep

/-- Count the occurrences of a pattern, scanning left to right and skipping
over each match (JavaScript `(s.match(/pat/g) || []).length` for a literal
pattern). -/
def countSubAux (pat : Str) : Nat → Str → Nat
  | 0, _ => 0
  | _ + 1, [] => 0
  | fuel + 1, c :: tl =>
    if pat ≠ [] ∧ pat.isPrefixOf (c :: tl) then
      1 + countSubAux pat fuel ((c :: tl).drop pat.length)
    else
      countSubAux pat fuel tl

/-- See `countSubAux`; the fuel covers the input length. -/
def countSub (pat s : Str) : Nat := countSubAux pat (s.length + 1) s

/-- The decimal digit characters `'0'..'9'`. -/
def isDigitChar (c : Char) : Bool := '0' ≤ c ∧ c ≤ '9'

/-- Hexadecimal digit characters. -/
def isHexChar (c : Char) : Bool :=
  isDigitChar c || ('a' ≤ c ∧ c ≤ 'f') || ('A' ≤ c ∧ c ≤ 'F')

/-- Numeric value of a decimal digit character. -/
def digitVal (c : Char) : Nat := c.toNat - '0'.toNat

/-- Numeric value of a hexadecimal digit character. -/
def hexVal (c : Char) : Nat :=
  if isDigitChar c then c.toNat - '0'.toNat
  else if 'a' ≤ c ∧ c ≤ 'f' then c.toNat - 'a'.toNat + 10
  else c.toNat - 'A'.toNat + 10

/-- Value of a digit string in the given base. -/
def digitsVal (base : Nat) (f : Char → Nat) (s : Str) : Nat :=
  s.foldl (fun acc c => acc * base + f c) 0

/-- Decimal digit character for `n < 10`. -/
def digitChar (n : Nat) : Char := Char.ofNat (48 + n)

/-- Decimal numeral of a natural number (JavaScript number-to-string for the
small indices interpolated by the source). -/
def natToStr (n : Nat) : Str :=
  let rec go : Nat → Nat → Str
    | 0, _ => []
    | fuel + 1, n =>
      if n < 10 then [digitChar n]
      else go fuel (n / 10) ++ [digitChar (n % 10)]
  go (n + 1) n

/-! ## JavaScript numeric conversions -/

/-- JavaScript `BigInt(string)` (the `StringToBigInt` conversion): trims
whitespace; an empty remainder is `0`; `0x`/`0o`/`0b` prefixes select the
base (no sign allowed with a prefix); otherwise an optional sign followed by
at least one decimal digit.  Anything else throws, modelled as `none`. -/
def jsParseBigInt (s : Str) : Option Int :=
  let t := trimStr s
  match t with
  | [] => some 0
  | '0' :: 'x' :: rest =>
    if rest ≠ [] ∧ rest.all isHexChar then some (digitsVal 16 hexVal rest) else none
  | '0' :: 'X' :: rest =>
    if rest ≠ [] ∧ rest.all isHexChar then some (digitsVal 16 hexVal rest) else none
  | '0' :: 'o' :: rest =>
    if rest ≠ [] ∧ rest.all (fun c => '0' ≤ c ∧ c ≤ '7') then
      some (digitsVal 8 digitVal rest) else none
  | '0' :: 'O' :: rest =>
    if rest ≠ [] ∧ rest.all (fun c => '0' ≤ c ∧ c ≤ '7') then
      some (digitsVal 8 digitVal rest) else none
  | '0' :: 'b' :: rest =>
    if rest ≠ [] ∧ rest.all (fun c => c = '0' ∨ c = '1') then
      some (digitsVal 2 digitVal rest) else none
  | '0' :: 'B' :: rest =>
    if rest ≠ [] ∧ rest.all (fun c => c = '0' ∨ c = '1') then
      some (digitsVal 2 digitVal rest) else none
  | '-' :: rest =>
    if rest ≠ [] ∧ rest.all isDigitChar then some (-(digitsVal 10 digitVal rest : Int))
    else none
  | '+' :: rest =>
    if rest ≠ [] ∧ rest.all isDigitChar then some (digitsVal 10 digitVal rest) else none
  | t =>
    if t.all isDigitChar then some (digitsVal 10 digitVal t) else none

/-- JavaScript `parseInt(s)` with the default radix: trims whitespace, takes
an optional sign, honours a `0x` prefix, then reads the longest digit prefix;
no digit at all gives `NaN`, modelled as `none`.  The exact mathematical
value is returned (rounding to a double does not matter at the small sizes
this code feeds to `parseInt` for bit widths). -/
def jsParseInt (s : Str) : Option Int :=
  let t := trimStr s
  let signed : Str → Bool × Str := fun u =>
    match u with
    | '-' :: rest => (true, rest)
    | '+' :: rest => (false, rest)
    | rest => (false, rest)
  let (neg, body) := signed t
  match body with
  | '0' :: 'x' :: rest =>
    let ds := rest.takeWhile isHexChar
    if ds = [] then none
    else some (if neg then -(digitsVal 16 hexVal ds : Int) else digitsVal 16 hexVal ds)
  | '0' :: 'X' :: rest =>
    let ds := rest.takeWhile isHexChar
    if ds = [] then none
    else some (if neg then -(digitsVal 16 hexVal ds : Int) else digitsVal 16 hexVal ds)
  | body =>
    let ds := body.takeWhile isDigitChar
    if ds = [] then none
    else some (if neg then -(digitsVal 10 digitVal ds : Int) else digitsVal 10 digitVal ds)

/-- JavaScript `BigInt` left shift `a << b` (an arithmetic right shift when
`b` is negative, which floors). -/
def jsShl (a b : Int) : Int :=
  if 0 ≤ b then a * 2 ^ b.toNat else Int.fdiv a (2 ^ (-b).toNat)

/-! ## Regular-expression tests used by the validator -/

/-- `/^0x[0-9a-fA-F]{40}$/` — an Ethereum address. -/
def matchesAddress (s : Str) : Bool :=
  match s with
  | '0' :: 'x' :: rest => rest.length = 40 && rest.all isHexChar
  | _ => false

/-- `/^0x[0-9a-fA-F]*$/` — dynamic `bytes` (possibly empty hex body). -/
def matchesBytes (s : Str) : Bool :=
  match s with
  | '0' :: 'x' :: rest => rest.all isHexChar
  | _ => false

/-- `/^0x[0-9a-fA-F]+$/` — nonempty hex body. -/
def matchesHexNonempty (s : Str) : Bool :=
  match s with
  | '0' :: 'x' :: rest => rest ≠ [] && rest.all isHexChar
  | _ => false

/-- `/^bytes\d+$/` — `bytes` followed by at least one decimal digit. -/
def matchesBytesN (s : Str) : Bool :=
  match s with
  | 'b' :: 'y' :: 't' :: 'e' :: 's' :: rest => rest ≠ [] && rest.all isDigitChar
  | _ => false

/-! ## The field validator (`SolidityInput.tsx`)

`validateInput` and `validateSingleValue` duplicate the same per-type checks
(one throws and catches, the other returns booleans); the shared body is
`validateTypeChecks`, a line-by-line translation of the `try` block of
`validateInput` (compared against `validateSingleValue`'s branches, which
perform character-for-character the same tests). -/

/-- The per-type checks of `validateInput`'s `try` block / the body of
`validateSingleValue`: `true` means the value passed, `false` means a throw
or a `return false`. -/
def validateTypeChecks (ty v : Str) : Bool :=
  if startsWithStr ("uint".toList) ty then
    match jsParseBigInt v with
    | none => false
    | some x =>
      if x < 0 then false
      else
        if ty ≠ "uint256".toList then
          match jsParseInt (replaceFirst ty ("uint".toList) []) with
          | none => false
          | some bits => decide (x ≤ jsShl 1 bits - 1)
        else true
  else if startsWithStr ("int".toList) ty then
    match jsParseBigInt v with
    | none => false
    | some x =>
      if ty ≠ "int256".toList then
        match jsParseInt (replaceFirst ty ("int".toList) []) with
        | none => false
        | some bits =>
          decide (-(jsShl 1 (bits - 1)) ≤ x ∧ x ≤ jsShl 1 (bits - 1) - 1)
      else true
  else if ty = "bool".toList then
    decide (v = "true".toList ∨ v = "false".toList)
  else if ty = "address".toList then
    matchesAddress v
  else if ty = "string".toList then
    true
  else if ty = "bytes".toList then
    matchesBytes v
  else if matchesBytesN ty then
    match jsParseInt (replaceFirst ty ("bytes".toList) []) with
    | none => false
    | some size =>
      let expectedLength : Int := size * 2 + 2
      startsWithStr ("0x".toList) v
        && decide ((v.length : Int) = expectedLength)
        && matchesHexNonempty v
  else false

/-- `validateInput` of `SolidityInput.tsx` as a function of the component
state it reads (`isTuple`, `isArray`, the declared `type`) and the candidate
value: returns the validity it reports through `setIsValid`/`onChange`. -/
def validateInput (isTuple isArray : Bool) (ty v : Str) : Bool :=
  if isTuple || isArray || ty = "string".toList then true
  else if trimStr v = [] ∧ v ≠ "false".toList then false
  else validateTypeChecks ty v

/-- `validateSingleValue` of `SolidityInput.tsx` (argument order as in the
source: value first, then type). -/
def validateSingleValue (itemValue itemType : Str) : Bool :=
  if itemType = "tuple".toList then true
  else if trimStr itemValue = [] ∧ itemValue ≠ "false".toList then false
  else validateTypeChecks itemType itemValue

/-! ## The tuple type-signature parser (`AbiInput/helpers/methods.ts`) -/

/-- The balanced-parenthesis scan of `parseTypeAndName`: starting from the
given nesting depth, return the segment up to and including the parenthesis
that closes the first `(` (the loop breaks when the depth counter returns to
zero) together with the remainder, or `none` when no parenthesis closes. -/
def findCloseParen : Str → Nat → Option (Str × Str)
  | [], _ => none
  | c :: rest, depth =>
    if c = '(' then
      match findCloseParen rest (depth + 1) with
      | some (seg, rem) => some (c :: seg, rem)
      | none => none
    else if c = ')' then
      if depth = 1 then some ([c], rest)
      else
        match findCloseParen rest (depth - 1) with
        | some (seg, rem) => some (c :: seg, rem)
        | none => none
    else
      match findCloseParen rest depth with
      | some (seg, rem) => some (c :: seg, rem)
      | none => none

/-- The square-bracket scan of `parseTypeAndName`: return the segment up to
and including the bracket that closes the first `[` (depth counter over `[`
and `]` only), together with the remainder. -/
def findCloseBracket : Str → Nat → Option (Str × Str)
  | [], _ => none
  | c :: rest, depth =>
    if c = '[' then
      match findCloseBracket rest (depth + 1) with
      | some (seg, rem) => some (c :: seg, rem)
      | none => none
    else if c = ']' then
      if depth = 1 then some ([c], rest)
      else
        match findCloseBracket rest (depth - 1) with
        | some (seg, rem) => some (c :: seg, rem)
        | none => none
    else
      match findCloseBracket rest depth with
      | some (seg, rem) => some (c :: seg, rem)
      | none => none

/-- The recognized Solidity type qualifiers of `parseTypeAndName`. -/
def typeModifiers : List Str :=
  ["memory".toList, "storage".toList, "calldata".toList,
   "payable".toList, "internal".toList, "external".toList]

/-- `parseTypeAndName` of `AbiInput/helpers/methods.ts`: split one tuple
field item into its type and its (possibly empty) name. -/
def parseTypeAndName (item0 : Str) : Str × Str :=
  let item := trimStr item0
  if item = [] then ([], [])
  else if startsWithStr ("(".toList) item then
    match findCloseParen item 0 with
    | none => (item, [])
    | some (tupleType, rest0) =>
      if rest0 = [] then (item, [])
      else
        let rest := trimStr rest0
        if startsWithStr ("[".toList) rest then
          match findCloseBracket rest0 0 with
          | none => (item, [])
          | some (arrSeg, afterArr) => (tupleType ++ arrSeg, trimStr afterArr)
        else
          let parts := (splitChar ' ' rest).filter (· ≠ [])
          (tupleType, joinSep (" ".toList) parts)
  else
    let words := (splitChar ' ' item).filter (· ≠ [])
    if words.length = 1 then (words.headD [], [])
    else
      let lastW := words.getLastD []
      if typeModifiers.contains lastW then (joinSep (" ".toList) words, [])
      else (joinSep (" ".toList) words.dropLast, lastW)

/-- The character loop of `parseTypeSignature`: split the tuple content at
top-level commas, tracking parenthesis depth (`(` increments and `)`
decrements unconditionally, so the depth is an integer), emitting each
nonempty trimmed item.  The source passes each emitted item straight to
`parseTypeAndName`; the emission is factored out here and the map applied by
`parseTypeSignature` below. -/
def splitTopLevel : Str → Int → Str → List Str → List Str
  | [], _, cur, acc =>
    if trimStr cur ≠ [] then acc ++ [trimStr cur] else acc
  | c :: rest, depth, cur, acc =>
    if c = '(' then splitTopLevel rest (depth + 1) (cur ++ [c]) acc
    else if c = ')' then splitTopLevel rest (depth - 1) (cur ++ [c]) acc
    else if c = ',' ∧ depth = 0 then
      splitTopLevel rest depth []
        (if trimStr cur ≠ [] then acc ++ [trimStr cur] else acc)
    else splitTopLevel rest depth (cur ++ [c]) acc

/-- `parseTypeSignature` of `AbiInput/helpers/methods.ts`: parse a
parenthesized tuple type signature into its ordered `(type, name)` fields. -/
def parseTypeSignature (signature : Str) : List (Str × Str) :=
  if signature = [] ∨ ¬ startsWithStr ("(".toList) signature
      ∨ ¬ endsWithStr (")".toList) signature then []
  else
    let content := trimStr ((signature.drop 1).dropLast)
    if content = [] then []
    else (splitTopLevel content 0 [] []).map parseTypeAndName

/-! ## Parameter trees and the linearizer (`helpers/linearizeAbi.ts`) -/

/-- One node of a function's parameter tree as delivered by the external
signature parser (`AbiParameter` with optional tuple `components`); an empty
`name` models a missing/empty name (both are falsy in the source), and
`components = none` models an absent `components` field (an empty array is
present, hence truthy). -/
inductive AbiParam : Type where
  | mk (type : Str) (name : Str) (components : Option (List AbiParam))

/-- The declared type of a parameter node. -/
def AbiParam.type : AbiParam → Str
  | .mk ty _ _ => ty

/-- The declared name of a parameter node. -/
def AbiParam.name : AbiParam → Str
  | .mk _ nm _ => nm

/-- The tuple components of a parameter node, when present. -/
def AbiParam.components : AbiParam → Option (List AbiParam)
  | .mk _ _ comps => comps

mutual
/-- `formatTupleType` of `helpers/linearizeAbi.ts`: rewrite a `tuple`-typed
parameter into its fully expanded literal signature `(type name, ...)`,
keeping any array suffix (`input.type.substring(5)`). -/
def formatTupleType : AbiParam → Str
  | .mk ty _ comps =>
    match comps with
    | none => ty
    | some cs =>
      if containsSub ty ("tuple".toList) then
        let componentsStr := joinSep (", ".toList) (formatComps cs 0)
        if ty = "tuple".toList then ('(' :: componentsStr) ++ [')']
        else (('(' :: componentsStr) ++ [')']) ++ ty.drop 5
      else ty

/-- The component map of `formatTupleType`: each component becomes
`"<type> <name>"`, where a falsy name is replaced by `param<index>` and a
tuple-typed component with components is recursively expanded. -/
def formatComps : List AbiParam → Nat → List Str
  | [], _ => []
  | c :: rest, i =>
    (let paramName := if c.name = [] then ("param".toList) ++ natToStr i else c.name
     if containsSub c.type ("tuple".toList) ∧ c.components.isSome then
       formatTupleType c ++ (' ' :: paramName)
     else
       c.type ++ (' ' :: paramName)) :: formatComps rest (i + 1)
end

/-- One flattened entry produced by `linearizeAbi` (the `LinearizedParameter`
of `helpers/linearizeAbi.ts`; the spread `...input` keeps the components). -/
structure LinearizedParameter where
  type : Str
  name : Str
  components : Option (List AbiParam)
  path : Str
  originalType : Str
  isElementOfArray : Bool
  arrayDepth : Nat

/-- The `forEach` body of `processInputs` inside `linearizeAbi`, with the
running index made explicit. -/
def processInputs : List AbiParam → Str → Bool → Nat → Nat → List LinearizedParameter
  | [], _, _, _, _ => []
  | input :: rest, prefixStr, isInArray, arrayDepth, index =>
    let paramName := if input.name = [] then ("param".toList) ++ natToStr index else input.name
    let fullPath := prefixStr ++ paramName
    let isArray := containsSub input.type ("[".toList)
    let currentArrayDepth :=
      if isArray then countSub ("[]".toList) input.type + arrayDepth else arrayDepth
    let transformedType :=
      if containsSub input.type ("tuple".toList) then formatTupleType input else input.type
    { type := transformedType
      name := fullPath
      components := input.components
      path := prefixStr
      originalType := input.type
      isElementOfArray := isInArray || isArray
      arrayDepth := currentArrayDepth } ::
      processInputs rest prefixStr isInArray arrayDepth (index + 1)

/-- `linearizeAbi` of `helpers/linearizeAbi.ts`, applied to the function's
input list: one flattened entry per top-level input, tuples kept as single
rows with their type expanded. -/
def linearizeAbi (inputs : List AbiParam) : List LinearizedParameter :=
  processInputs inputs [] false 0 0

/-! ## The ABI-string validator (`AbiInput.tsx`) -/

/-- The function descriptor returned by the external `parseAbiItem`
collaborator: an item kind (`"function"`, `"event"`, ...), a name, and the
parameter tree of the inputs. -/
structure ParsedAbi where
  type : Str
  name : Str
  inputs : List AbiParam

/-- The component state read and written by `validateAbi`: validity flag,
error message, and the derived data (descriptor, linearization, function
signature) together with the downstream value preview and bytecode, which
`validateAbi` never touches. -/
structure AbiState where
  isValid : Bool
  error : Str
  abiObject : Option ParsedAbi
  linearizedAbi : List LinearizedParameter
  functionSignature : Str
  valuePreview : Str
  bytecode : Str

/-- `validateAbi` of `AbiInput.tsx` as a state transformer: the external
`parseAbiItem` collaborator is passed in as an oracle (`Except` models its
throw, whose message the `catch` stores as the error).  Returns the updated
component state and the boolean result of the function. -/
def validateAbi (parseAbiItem : Str → Except Str ParsedAbi)
    (abiString : Str) (st : AbiState) : AbiState × Bool :=
  if trimStr abiString = [] then
    ({ st with error := "ABI cannot be empty".toList, isValid := false }, false)
  else
    match parseAbiItem abiString with
    | .error e => ({ st with error := e, isValid := false }, false)
    | .ok parsedAbi =>
      if parsedAbi.type ≠ "function".toList then
        ({ st with error := "ABI must be a function".toList, isValid := false }, false)
      else
        let functionName :=
          if parsedAbi.name = [] then "anonymousFunction".toList else parsedAbi.name
        let inputParams :=
          joinSep (", ".toList)
            (parsedAbi.inputs.map fun input =>
              input.type ++ (if input.name ≠ [] then ' ' :: input.name else []))
        ({ st with
            error := []
            isValid := true
            abiObject := some parsedAbi
            linearizedAbi := linearizeAbi parsedAbi.inputs
            functionSignature := (functionName ++ ('(' :: inputParams)) ++ [')'] },
         true)

/-! ## JavaScript values and `JSON.parse`

The formatter and the call assembler move between strings and parsed
JavaScript values (`JSON.parse` results, `parseInt`/`parseFloat` results,
tuples turned into arrays).  `JVal` is the value universe; a JavaScript
number holding an integer is `jnum` carrying the exact integer the double
represents (integer literals are rounded to the nearest double on
conversion, see `roundToDouble`), and a non-integer numeric literal is kept
as `jfloat` with its literal text (no theorem below depends on float
values). -/
inductive JVal : Type where
  | jnull
  | jbool (b : Bool)
  | jnum (n : Int)
  | jfloat (lit : Str)
  | jstr (s : Str)
  | jarr (l : List JVal)
  | jobj (l : List (Str × JVal))

/-- Number of binary digits of a natural number. -/
def bitLen (n : Nat) : Nat := if n = 0 then 0 else (Nat.toDigits 2 n).length

/-- Round a natural number to the nearest IEEE-754 double (53-bit mantissa,
ties to even).  Overflow to infinity (beyond `2^1024`) is not modelled; no
input below comes near it. -/
def roundNatToDouble (n : Nat) : Nat :=
  let b := bitLen n
  if b ≤ 53 then n
  else
    let k := b - 53
    let q := n / 2 ^ k
    let r := n % 2 ^ k
    let half := 2 ^ (k - 1)
    let q' := if half < r ∨ (r = half ∧ q % 2 = 1) then q + 1 else q
    q' * 2 ^ k

/-- Round an integer to the exact value of the nearest IEEE-754 double: the
narrowing conversion performed by JavaScript `parseInt` and by `JSON.parse`
on integer literals. -/
def roundToDouble (n : Int) : Int :=
  if n < 0 then -(roundNatToDouble n.natAbs : Int) else (roundNatToDouble n.natAbs : Int)

/-- Decimal numeral of an integer. -/
def intToStr (n : Int) : Str :=
  if n < 0 then '-' :: natToStr n.natAbs else natToStr n.natAbs

/-- Insert a key/value pair into an object, JavaScript-style: a duplicate
key keeps its original position and takes the new value. -/
def objInsert (l : List (Str × JVal)) (k : Str) (v : JVal) : List (Str × JVal) :=
  match l with
  | [] => [(k, v)]
  | (k', v') :: rest =>
    if k' = k then (k', v) :: rest else (k', v') :: objInsert rest k v

/-- First value bound to a key in an object. -/
def objLookup (l : List (Str × JVal)) (k : Str) : Option JVal :=
  match l with
  | [] => none
  | (k', v) :: rest => if k' = k then some v else objLookup rest k

/-- Parse the body of a JSON string literal (after the opening quote):
returns the decoded characters and the input after the closing quote. -/
def jsonStringBody : Nat → Str → Str → Option (Str × Str)
  | 0, _, _ => none
  | _ + 1, [], _ => none
  | fuel + 1, c :: rest, acc =>
    if c = '"' then some (acc.reverse, rest)
    else if c = '\\' then
      match rest with
      | [] => none
      | e :: rest' =>
        if e = '"' then jsonStringBody fuel rest' ('"' :: acc)
        else if e = '\\' then jsonStringBody fuel rest' ('\\' :: acc)
        else if e = '/' then jsonStringBody fuel rest' ('/' :: acc)
        else if e = 'n' then jsonStringBody fuel rest' ('\n' :: acc)
        else if e = 't' then jsonStringBody fuel rest' ('\t' :: acc)
        else if e = 'r' then jsonStringBody fuel rest' ('\r' :: acc)
        else if e = 'b' then jsonStringBody fuel rest' (Char.ofNat 8 :: acc)
        else if e = 'f' then jsonStringBody fuel rest' (Char.ofNat 12 :: acc)
        else if e = 'u' then
          match rest' with
          | h1 :: h2 :: h3 :: h4 :: rest'' =>
            if [h1, h2, h3, h4].all isHexChar then
              jsonStringBody fuel rest''
                (Char.ofNat (digitsVal 16 hexVal [h1, h2, h3, h4]) :: acc)
            else none
          | _ => none
        else none
    else jsonStringBody fuel rest (c :: acc)

/-- Parse a JSON number at the head of the input: an optional minus sign, an
integer part without leading zeros, an optional fraction and exponent.  An
integer literal is rounded to the nearest double (`jnum`); a literal with a
fraction or exponent is kept as an opaque `jfloat`. -/
def jsonNumber (s : Str) : Option (JVal × Str) :=
  let (neg, body) := match s with
    | '-' :: rest => (true, rest)
    | rest => (false, rest)
  let intp := body.takeWhile isDigitChar
  if intp = [] then none
  else if 2 ≤ intp.length ∧ intp.headD '0' = '0' then none
  else
    let rest := body.drop intp.length
    let (frac, rest') := match rest with
      | '.' :: fr =>
        let frd := fr.takeWhile isDigitChar
        (if frd = [] then none else some frd, fr.drop frd.length)
      | r => (none, r)
    if rest ≠ rest' ∧ frac = none then none
    else
      let (expPart, rest'') := match rest' with
        | 'e' :: er => (some er, er)
        | 'E' :: er => (some er, er)
        | r => (none, r)
      match expPart with
      | none =>
        match frac with
        | none =>
          let v : Int := digitsVal 10 digitVal intp
          some (.jnum (roundToDouble (if neg then -v else v)), rest')
        | some _ =>
          some (.jfloat (s.take (s.length - rest'.length)), rest')
      | some er =>
        let ebody := match er with
          | '+' :: r => r
          | '-' :: r => r
          | r => r
        let eds := ebody.takeWhile isDigitChar
        if eds = [] then none
        else
          let consumed := ebody.drop eds.length
          let _ := rest''
          some (.jfloat (s.take (s.length - consumed.length)), consumed)

mutual
/-- Parse one JSON value after skipping whitespace; returns the value and
the unconsumed input. -/
def jsonVal : Nat → Str → Option (JVal × Str)
  | 0, _ => none
  | fuel + 1, s =>
    match s.dropWhile isWsChar with
    | '{' :: rest =>
      match (rest.dropWhile isWsChar) with
      | '}' :: rest' => some (.jobj [], rest')
      | _ => jsonMembers fuel rest []
    | '[' :: rest =>
      match (rest.dropWhile isWsChar) with
      | ']' :: rest' => some (.jarr [], rest')
      | _ => jsonElements fuel rest []
    | '"' :: rest =>
      match jsonStringBody (rest.length + 1) rest [] with
      | some (str, rest') => some (.jstr str, rest')
      | none => none
    | 't' :: 'r' :: 'u' :: 'e' :: rest => some (.jbool true, rest)
    | 'f' :: 'a' :: 'l' :: 's' :: 'e' :: rest => some (.jbool false, rest)
    | 'n' :: 'u' :: 'l' :: 'l' :: rest => some (.jnull, rest)
    | t => jsonNumber t

/-- Parse the members of a JSON object (after `{`, at least one member). -/
def jsonMembers : Nat → Str → List (Str × JVal) → Option (JVal × Str)
  | 0, _, _ => none
  | fuel + 1, s, acc =>
    match s.dropWhile isWsChar with
    | '"' :: rest =>
      match jsonStringBody (rest.length + 1) rest [] with
      | none => none
      | some (key, rest') =>
        match rest'.dropWhile isWsChar with
        | ':' :: rest'' =>
          match jsonVal fuel rest'' with
          | none => none
          | some (v, rest''') =>
            let acc' := objInsert acc key v
            match rest'''.dropWhile isWsChar with
            | ',' :: more => jsonMembers fuel more acc'
            | '}' :: more => some (.jobj acc', more)
            | _ => none
        | _ => none
    | _ => none

/-- Parse the elements of a JSON array (after `[`, at least one element). -/
def jsonElements : Nat → Str → List JVal → Option (JVal × Str)
  | 0, _, _ => none
  | fuel + 1, s, acc =>
    match jsonVal fuel s with
    | none => none
    | some (v, rest) =>
      match rest.dropWhile isWsChar with
      | ',' :: more => jsonElements fuel more (acc ++ [v])
      | ']' :: more => some (.jarr (acc ++ [v]), more)
      | _ => none
end

/-- JavaScript `JSON.parse`: parse one value and require only whitespace
after it; a syntax error is `none` (the JavaScript throw). -/
def jsonParse (s : Str) : Option JVal :=
  match jsonVal (2 * s.length + 2) s with
  | some (v, rest) => if rest.dropWhile isWsChar = [] then some v else none
  | none => none

mutual
/-- JavaScript `String(value)` for the values that can appear here. -/
def jsToString : JVal → Str
  | .jnull => "null".toList
  | .jbool true => "true".toList
  | .jbool false => "false".toList
  | .jnum n => intToStr n
  | .jfloat lit => lit
  | .jstr s => s
  | .jarr l => joinSep [','] (jsToStringElems l)
  | .jobj _ => "[object Object]".toList

/-- `Array.prototype.join` stringification of the elements (`null` becomes
the empty string). -/
def jsToStringElems : List JVal → List Str
  | [] => []
  | .jnull :: rest => [] :: jsToStringElems rest
  | v :: rest => jsToString v :: jsToStringElems rest
end

/-! ## The value-preview formatter (`AbiInput.tsx`) -/

/-- The test `!isNaN(Number(val))`: does JavaScript `Number(string)` yield a
number (it yields `0` for empty/whitespace-only input, accepts `Infinity`,
`0x`/`0o`/`0b` prefixes without a sign, and decimal literals with optional
fraction and exponent)? -/
def jsNumberOk (s : Str) : Bool :=
  let t := trimStr s
  if t = [] then true
  else
    let expOk : Str → Bool := fun r =>
      match r with
      | [] => true
      | 'e' :: er =>
        let eb := match er with
          | '+' :: x => x
          | '-' :: x => x
          | x => x
        eb ≠ [] && eb.all isDigitChar
      | 'E' :: er =>
        let eb := match er with
          | '+' :: x => x
          | '-' :: x => x
          | x => x
        eb ≠ [] && eb.all isDigitChar
      | _ => false
    let decBody : Str → Bool := fun b =>
      let intp := b.takeWhile isDigitChar
      let rest := b.drop intp.length
      match rest with
      | '.' :: fr =>
        let frd := fr.takeWhile isDigitChar
        (intp ≠ [] || frd ≠ []) && expOk (fr.drop frd.length)
      | r => intp ≠ [] && expOk r
    match t with
    | '0' :: 'x' :: rest => rest ≠ [] && rest.all isHexChar
    | '0' :: 'X' :: rest => rest ≠ [] && rest.all isHexChar
    | '0' :: 'o' :: rest => rest ≠ [] && rest.all (fun c => '0' ≤ c && c ≤ '7')
    | '0' :: 'O' :: rest => rest ≠ [] && rest.all (fun c => '0' ≤ c && c ≤ '7')
    | '0' :: 'b' :: rest => rest ≠ [] && rest.all (fun c => c = '0' || c = '1')
    | '0' :: 'B' :: rest => rest ≠ [] && rest.all (fun c => c = '0' || c = '1')
    | _ =>
      let body := match t with
        | '-' :: r => r
        | '+' :: r => r
        | r => r
      body = "Infinity".toList || decBody body

/-- `val.replace(/^"|"$/g, '')`: strip one leading and one trailing
double-quote character. -/
def stripEdgeQuotes (s : Str) : Str :=
  let s1 := match s with
    | '"' :: rest => rest
    | r => r
  match s1.getLast? with
  | some '"' => s1.dropLast
  | _ => s1

mutual
/-- `formatTuple` of `AbiInput.tsx` (the heuristic fallback formatter):
serialized-object-looking values are formatted last, scalar values first;
`none` models the `JSON.parse` throw on a string argument that is not valid
JSON.  `fuel` bounds the recursion through serialized nested strings. -/
def formatTuple : Nat → JVal → Option Str
  | 0, _ => none
  | fuel + 1, tupleValue =>
    match tupleValue with
    | .jstr s =>
      if startsWithStr ("(".toList) s ∧ endsWithStr (")".toList) s then some s
      else
        match jsonParse s with
        | none => none
        | some obj => formatTupleObj fuel obj
    | v => formatTupleObj fuel v

/-- The body of `formatTuple` once `tupleObj` is at hand. -/
def formatTupleObj : Nat → JVal → Option Str
  | 0, _ => none
  | fuel + 1, tupleObj =>
    match tupleObj with
    | .jobj fields =>
      let isNested : JVal → Bool := fun v =>
        match v with
        | .jstr s => startsWithStr ("\x7b".toList) s ∧ endsWithStr ("\x7d".toList) s
        | _ => false
      let tupleKeys := fields.filter (fun kv => isNested kv.2)
      let otherKeys := fields.filter (fun kv => ¬ isNested kv.2)
      let nestedTupleValues := tupleKeys.map (fun kv =>
        match formatTuple fuel kv.2 with
        | some r => r
        | none => "(...)".toList)
      let otherValues := otherKeys.map (fun kv =>
        match kv.2 with
        | .jstr val =>
          if val = "true".toList ∨ val = "false".toList ∨ jsNumberOk val then val
          else if startsWithStr ("\"".toList) val ∧ endsWithStr ("\"".toList) val then val
          else ('"' :: val) ++ ['"']
        | v => jsToString v)
      some (('(' :: joinSep (", ".toList) (otherValues ++ nestedTupleValues)) ++ [')'])
    | _ => some "()".toList
end

mutual
/-- `formatTupleWithStructure` of `AbiInput.tsx`: format a tuple value (a
JSON object, usually serialized) according to the field order and field
types recovered from the expanded type signature by `parseTypeSignature`;
`none` models an uncaught throw (a failing `JSON.parse`). -/
def formatTupleWithStructure : Nat → JVal → Str → Option Str
  | 0, _, _ => none
  | fuel + 1, value, typeSignature =>
    let tupleObj? : Option JVal :=
      match value with
      | .jstr s => jsonParse s
      | v => some v
    match tupleObj? with
    | none => none
    | some tupleObj =>
      match tupleObj with
      | .jobj fields =>
        let typesWithNames := parseTypeSignature typeSignature
        if typesWithNames = [] then formatTuple (fuel + 1) value
        else
          match formatStructFields fuel fields typesWithNames with
          | none => none
          | some formattedValues =>
            some (('(' :: joinSep (", ".toList) formattedValues) ++ [')'])
      | _ => some "()".toList

/-- The field loop of `formatTupleWithStructure`: one formatted entry per
`(type, name)` of the parsed signature, in that order. -/
def formatStructFields : Nat → List (Str × JVal) → List (Str × Str) → Option (List Str)
  | 0, _, _ => none
  | _ + 1, _, [] => some []
  | fuel + 1, fields, (ty, nm) :: rest =>
    match formatStructField fuel fields ty nm with
    | none => none
    | some entry =>
      match formatStructFields fuel fields rest with
      | none => none
      | some entries => some (entry :: entries)

/-- One iteration of the field loop of `formatTupleWithStructure`. -/
def formatStructField : Nat → List (Str × JVal) → Str → Str → Option Str
  | 0, _, _, _ => none
  | fuel + 1, fields, ty, nm =>
    if nm = [] ∨ (objLookup fields nm).isNone then some "...".toList
    else
      match objLookup fields nm with
      | none => some "...".toList
      | some val =>
        if startsWithStr ("(".toList) ty ∧ endsWithStr (")".toList) ty then
          match formatTupleWithStructure fuel val ty with
          | some r => some r
          | none => formatTuple fuel val
        else
          match val with
          | .jstr s =>
            if ty = "string".toList then some (('"' :: stripEdgeQuotes s) ++ ['"'])
            else some s
          | v => some (jsToString v)
end

/-! ## The call assembler argument pipeline (`helpers/combineTx.ts`) -/

/-- The first statement of the tuple-aware `combineTx`:
`argsString.replace(/\[/g, '(').replace(/\]/g, ')')` — every square bracket
in the whole argument string becomes the matching parenthesis. -/
def replaceBrackets (s : Str) : Str :=
  (s.map fun c => if c = '[' then '(' else c).map fun c => if c = ']' then ')' else c

/-- The quote scan inside `processNestedTuples`: consume characters up to
and including the closing quote (a quote preceded by a backslash does not
close), returning the consumed characters and the remainder.  `prev` is the
previously consumed character (initially the opening quote). -/
def quoteScan (q : Char) : Str → Char → Str × Str
  | [], _ => ([], [])
  | c :: rest, prev =>
    if c = q ∧ prev ≠ '\\' then ([c], rest)
    else
      let (seg, rem) := quoteScan q rest c
      (c :: seg, rem)

/-- The argument-splitting loop of `processNestedTuples`: cut the argument
string into raw argument strings at top-level commas, treating a
parenthesized group followed by end-of-input or a comma as one argument and
skipping over quoted segments. -/
def pntSplitAux : Nat → Str → Nat → Str → List Str → List Str
  | 0, _, _, cur, acc => if trimStr cur ≠ [] then acc ++ [cur] else acc
  | _ + 1, [], _, cur, acc => if trimStr cur ≠ [] then acc ++ [cur] else acc
  | fuel + 1, c :: rest, depth, cur, acc =>
    if c = '(' ∧ (trimStr cur = [] ∨ 0 < depth) then
      pntSplitAux fuel rest (depth + 1) (cur ++ [c]) acc
    else if c = ')' ∧ 0 < depth then
      let cur' := cur ++ [c]
      if depth - 1 = 0 ∧ (rest = [] ∨ rest.headD ' ' = ',') then
        pntSplitAux fuel rest (depth - 1) [] (acc ++ [cur'])
      else pntSplitAux fuel rest (depth - 1) cur' acc
    else if c = ',' ∧ depth = 0 then
      pntSplitAux fuel rest depth [] (if trimStr cur ≠ [] then acc ++ [cur] else acc)
    else if c = '"' ∨ c = Char.ofNat 39 then
      pntSplitAux fuel (quoteScan c rest c).2 depth ((cur ++ [c]) ++ (quoteScan c rest c).1) acc
    else pntSplitAux fuel rest depth (cur ++ [c]) acc

/-- See `pntSplitAux`; the fuel covers the input length (the scan consumes
at least one character per step). -/
def pntSplit (s : Str) (depth : Nat) (cur : Str) (acc : List Str) : List Str :=
  pntSplitAux (s.length + 1) s depth cur acc

/-- `/^-?\d+(\.\d+)?$/` — the numeric-literal test of the assembler. -/
def matchesNumberLit (s : Str) : Bool :=
  let body := match s with
    | '-' :: r => r
    | r => r
  let intp := body.takeWhile isDigitChar
  if intp = [] then false
  else
    match body.drop intp.length with
    | [] => true
    | '.' :: fr => fr ≠ [] && fr.all isDigitChar
    | _ => false

/-- Exact value of a `-?\d+` literal. -/
def decLitToInt (s : Str) : Int :=
  match s with
  | '-' :: ds => -(digitsVal 10 digitVal ds : Int)
  | ds => (digitsVal 10 digitVal ds : Int)

mutual
/-- The `processArg` helper inside `processNestedTuples`: classify one raw
argument — a parenthesized tuple recurses (tuples become arrays), a quoted
string is unquoted, a bracketed array goes through `JSON.parse` (recursing
when that throws), an address stays a string, `true`/`false` become
booleans, a numeric literal goes through `parseFloat` (kept opaque) or
`parseInt` (exact value rounded to the nearest double), anything else stays
a string. -/
def processArg : Nat → Str → JVal
  | 0, arg => .jstr (trimStr arg)
  | fuel + 1, arg =>
    let trimmed := trimStr arg
    if startsWithStr ("(".toList) trimmed ∧ endsWithStr (")".toList) trimmed then
      .jarr (processNestedTuples fuel ((trimmed.drop 1).dropLast))
    else if (startsWithStr ("\"".toList) trimmed ∧ endsWithStr ("\"".toList) trimmed)
        ∨ (startsWithStr [Char.ofNat 39] trimmed ∧ endsWithStr [Char.ofNat 39] trimmed) then
      .jstr ((trimmed.drop 1).dropLast)
    else if startsWithStr ("[".toList) trimmed ∧ endsWithStr ("]".toList) trimmed then
      match jsonParse trimmed with
      | some v => v
      | none => .jarr (processNestedTuples fuel ((trimmed.drop 1).dropLast))
    else if matchesAddress trimmed then .jstr trimmed
    else if trimmed = "true".toList then .jbool true
    else if trimmed = "false".toList then .jbool false
    else if matchesNumberLit trimmed then
      if containsSub trimmed (".".toList) then .jfloat trimmed
      else .jnum (roundToDouble (decLitToInt trimmed))
    else .jstr trimmed

/-- `processNestedTuples` of `helpers/combineTx.ts`: split the argument
string at top-level commas and classify each piece with `processArg`. -/
def processNestedTuples : Nat → Str → List JVal
  | 0, _ => []
  | fuel + 1, argsString => (pntSplit argsString 0 [] []).map (processArg fuel)
end

/-- The per-argument rewrite of `combineTx`'s simple (tuple-free) path:
quoted/bracketed/braced pieces pass through, addresses and other bare words
get quoted, numeric literals stay bare. -/
def combineTxJsonPathArgs (argsString : Str) : Option (List JVal) :=
  let processedArgsString :=
    joinSep [','] ((splitChar ',' argsString).map fun arg =>
      let trimmedArg := trimStr arg
      if (startsWithStr ("\"".toList) trimmedArg ∧ endsWithStr ("\"".toList) trimmedArg)
          ∨ (startsWithStr ("[".toList) trimmedArg ∧ endsWithStr ("]".toList) trimmedArg)
          ∨ (startsWithStr ("\x7b".toList) trimmedArg ∧ endsWithStr ("\x7d".toList) trimmedArg)
        then trimmedArg
      else if matchesAddress trimmedArg then ('"' :: trimmedArg) ++ ['"']
      else if matchesNumberLit trimmedArg then trimmedArg
      else ('"' :: trimmedArg) ++ ['"'])
  match jsonParse (('[' :: processedArgsString) ++ [']']) with
  | some (.jarr l) => some l
  | some _ => none
  | none => none

/-- The argument-parsing stage of the tuple-aware `combineTx`
(`helpers/combineTx.ts`): rewrite every square bracket to a parenthesis,
then parse through `processNestedTuples` when any parenthesis is present and
through the JSON path otherwise.  `none` models the throw that `combineTx`
converts into its failure message; the resulting value list is exactly the
`args` array handed to the external `encodeFunctionData` encoder. -/
def combineTxArgs (argsString0 : Str) : Option (List JVal) :=
  let argsString := replaceBrackets argsString0
  let hasTuples := containsSub argsString ("(".toList) ∧ containsSub argsString (")".toList)
  if hasTuples then some (processNestedTuples (2 * argsString.length + 2) argsString)
  else combineTxJsonPathArgs argsString

/-! ## The complex-tuple parser of `SolidityInput.tsx` -/

/-- The characters of the name pattern `/^([a-zA-Z0-9_]+)$/`. -/
def identChar (c : Char) : Bool := c.isAlphanum || c = '_'

/-- `typeStr.replace(/\[\d*\]$/, '')`: strip one trailing `[digits]` or `[]`
group, when present. -/
def stripTrailingArray (s : Str) : Str :=
  match s.reverse with
  | ']' :: rest =>
    let ds := rest.takeWhile isDigitChar
    (match rest.drop ds.length with
     | '[' :: rem => rem.reverse
     | _ => s)
  | _ => s

/-- The field-splitting loop of `parseTupleType` in `SolidityInput.tsx`:
like `splitTopLevel` but with the depth guarded (a stray `)` at depth zero
is accumulated as an ordinary character), emitting trimmed nonempty items. -/
def sitSplit : Str → Nat → Str → List Str → List Str
  | [], _, cur, acc => if trimStr cur ≠ [] then acc ++ [trimStr cur] else acc
  | c :: rest, depth, cur, acc =>
    if c = '(' then sitSplit rest (depth + 1) (cur ++ [c]) acc
    else if c = ')' ∧ 0 < depth then sitSplit rest (depth - 1) (cur ++ [c]) acc
    else if c = ',' ∧ depth = 0 then
      sitSplit rest depth [] (if trimStr cur ≠ [] then acc ++ [trimStr cur] else acc)
    else sitSplit rest depth (cur ++ [c]) acc

/-- One parsed field of a complex tuple type (`ParsedTupleField` of
`SolidityInput.tsx`). -/
structure ParsedTupleField where
  type : Str
  name : Str
  isComplex : Bool
  components : Option (List ParsedTupleField)

mutual
/-- `parseTupleType` of `SolidityInput.tsx`: parse a complex tuple type
string such as `(uint256 a, (uint256 b, uint256 c) p)` into its field
structure, together with the array flag.  `rnd` models the value drawn from
`Math.random` for a nested tuple field without a parseable name. -/
def parseTupleType : Nat → Nat → Str → List ParsedTupleField × Bool
  | 0, _, _ => ([], false)
  | fuel + 1, rnd, typeStr =>
    let isArray := containsSub typeStr ("[]".toList)
    let baseType := if isArray then stripTrailingArray typeStr else typeStr
    if ¬ (startsWithStr ("(".toList) baseType ∧ endsWithStr (")".toList) baseType) then
      ([], isArray)
    else
      let content := (baseType.drop 1).dropLast
      ((sitSplit content 0 [] []).filterMap (parseField fuel rnd), isArray)

/-- `parseField` of `SolidityInput.tsx`: a nested tuple keeps its full
parenthesized type and recursively parsed components; a plain field must
have at least two space-separated parts (`"type name"`), otherwise the
field is dropped (`null`). -/
def parseField : Nat → Nat → Str → Option ParsedTupleField
  | 0, _, _ => none
  | fuel + 1, rnd, field =>
    if field = [] then none
    else if startsWithStr ("(".toList) field then
      match findCloseParen field 0 with
      | none => none
      | some (tupleType, rest) =>
        let restTrim := trimStr rest
        let name :=
          if restTrim ≠ [] ∧ restTrim.all identChar then restTrim
          else ("param".toList) ++ natToStr rnd
        some { type := tupleType
               name := name
               isComplex := true
               components := some (parseTupleType fuel rnd tupleType).1 }
    else
      let parts := splitChar ' ' field
      if parts.length < 2 then none
      else
        some { type := parts.headD []
               name := (parts.drop 1).headD []
               isComplex := false
               components := none }
end

/-! ## Specification-side vocabulary for the round-trip claims -/

/-- The display name `formatTupleType` gives a component: its own name, or
`param<index>` when the name is empty. -/
def displayName (c : AbiParam) (i : Nat) : Str :=
  if c.name = [] then ("param".toList) ++ natToStr i else c.name

/-- The type string a component contributes to an expanded signature: the
recursively expanded form for a tuple component with components, its own
type otherwise. -/
def expandedCompType (c : AbiParam) : Str :=
  if containsSub c.type ("tuple".toList) ∧ c.components.isSome then formatTupleType c
  else c.type

/-- The ordered `(type, name)` field list used to produce an expanded tuple
signature from the component list, starting at the given index. -/
def expectedFields : List AbiParam → Nat → List (Str × Str)
  | [], _ => []
  | c :: rest, i => (expandedCompType c, displayName c i) :: expectedFields rest (i + 1)

/-- Scan a string from a given parenthesis depth: `none` when a `)` appears
at depth zero or a `,` appears at top level, otherwise the final depth.
`itemScan s 0 = some 0` says `s` is a well-parenthesized item all of whose
commas are inside parentheses — the shape of one formatted component. -/
def itemScan : Str → Nat → Option Nat
  | [], d => some d
  | c :: rest, d =>
    if c = '(' then itemScan rest (d + 1)
    else if c = ')' then
      if d = 0 then none else itemScan rest (d - 1)
    else if c = ',' ∧ d = 0 then none
    else itemScan rest d

/-- Like `itemScan` but commas are unrestricted: `balScan s 0 = some 0` says
the parentheses of `s` are balanced and never close below the start depth. -/
def balScan : Str → Nat → Option Nat
  | [], d => some d
  | c :: rest, d =>
    if c = '(' then balScan rest (d + 1)
    else if c = ')' then
      if d = 0 then none else balScan rest (d - 1)
    else balScan rest d

/-- Characters allowed in a leaf component type: identifier characters and
square brackets (array suffixes); no spaces, commas, parentheses or
whitespace. -/
def typeCharOk (c : Char) : Bool := identChar c || c = '[' || c = ']'

/-- Well-formedness of one parameter-tree component, under which the
expanded signature can be re-parsed: a leaf carries a nonempty type made of
plain type characters and no component list, while a tuple component is
`tuple` with at most one array suffix (`[]` or `[digits]`) and well-formed
components.  Names are either empty or bracket-free identifiers that are not
type qualifiers. -/
inductive WfComp : AbiParam → Prop
  | leaf (ty nm : Str)
      (hty : ty.all typeCharOk = true) (hne : ty ≠ [])
      (hnm : nm.all identChar = true) (hmod : ¬ typeModifiers.contains nm = true) :
      WfComp (.mk ty nm none)
  | tuple (sfx nm : Str) (cs : List AbiParam)
      (hsfx : sfx = [] ∨ ∃ ds : Str, ds.all isDigitChar = true ∧ sfx = ('[' :: ds) ++ [']'])
      (hnm : nm.all identChar = true) (hmod : ¬ typeModifiers.contains nm = true)
      (hcs : ∀ c ∈ cs, WfComp c) :
      WfComp (.mk (("tuple".toList) ++ sfx) nm (some cs))

/-- Well-formedness of a component list. -/
def WfComps (cs : List AbiParam) : Prop := ∀ c ∈ cs, WfComp c

/-- The string `formatComps` emits for one component at one index
(`"<expanded type> <display name>"`). -/
def formatCompItem (c : AbiParam) (i : Nat) : Str :=
  let paramName := if c.name = [] then ("param".toList) ++ natToStr i else c.name
  if containsSub c.type ("tuple".toList) ∧ c.components.isSome then
    formatTupleType c ++ (' ' :: paramName)
  else
    c.type ++ (' ' :: paramName)

/-- The facts needed of one emitted component item for the split and
re-parse arguments: well-parenthesized with no top-level comma, nonempty,
and whitespace-free at both ends. -/
def ItemOk (item : Str) : Prop :=
  itemScan item 0 = some 0 ∧ item ≠ [] ∧
    (∀ c, item.head? = some c → isWsChar c = false) ∧
    (∀ c, item.getLast? = some c → isWsChar c = false)


/-! ## Theorems -/

/-- C5: `parseTypeSignature` returns exactly the field lists the
specification enumerates: named fields, unnamed fields, the empty tuple, a
nested tuple kept as one field with its full parenthesized type, and array
suffixes attached to the type. -/
theorem parseTypeSignature_enumerated_examples :
    parseTypeSignature ("(uint256 a, address b)".toList) =
      [("uint256".toList, "a".toList), ("address".toList, "b".toList)]
    ∧ parseTypeSignature ("(uint256, address)".toList) =
      [("uint256".toList, []), ("address".toList, [])]
    ∧ parseTypeSignature ("()".toList) = []
    ∧ parseTypeSignature ("(uint256 a, (uint256 b, address c) nestedTuple, bool flag)".toList) =
      [("uint256".toList, "a".toList),
       ("(uint256 b, address c)".toList, "nestedTuple".toList),
       ("bool".toList, "flag".toList)]
    ∧ parseTypeSignature ("(uint256[3] fixedArray, address[][] dynamicArray)".toList) =
      [("uint256[3]".toList, "fixedArray".toList),
       ("address[][]".toList, "dynamicArray".toList)] :=
  ⟨rfl, rfl, rfl, rfl, rfl⟩

/-- C4: the assembler's argument stage narrows numeric literals through
`parseInt` (tuple path) and `JSON.parse` (simple path), both of which round
to the nearest IEEE-754 double: the integer `9007199254740993` (2^53 + 1)
reaches the encoder as `9007199254740992` on both paths, so a numeric
literal beyond 53 bits is not carried exactly. -/
theorem combineTx_rounds_large_integer_literals :
    combineTxArgs ("(9007199254740993)".toList) =
      some [.jarr [.jnum 9007199254740992]]
    ∧ combineTxArgs ("9007199254740993".toList) = some [.jnum 9007199254740992]
    ∧ (9007199254740992 : Int) ≠ (9007199254740993 : Int) :=
  ⟨rfl, rfl, by decide⟩

/-- C10: a tuple field item that does not start with `(` and has no space
(fewer than two space-separated parts) makes `parseField` return `null`, and
`parseTupleType` silently omits such a component: parsing
`(uint256, bool b)` yields only the `bool b` field. -/
theorem parseField_unnamed_scalar_dropped :
    (∀ (fuel rnd : Nat) (field : Str),
      ¬ startsWithStr ("(".toList) field = true →
      (splitChar ' ' field).length < 2 →
      parseField fuel rnd field = none)
    ∧ (parseTupleType 9 0 ("(uint256, bool b)".toList)).1 =
      [{ type := "bool".toList, name := "b".toList, isComplex := false, components := none }] := by
  constructor
  · intro fuel rnd field hparen hlen
    cases fuel with
    | zero => rfl
    | succ n =>
      unfold parseField
      by_cases hf : field = []
      · simp [hf]
      · rw [if_neg hf, if_neg (by simpa using hparen), if_pos hlen]
  · rfl

/-- C10 witness: the general statement applied to the unnamed scalar
`uint256`. -/
theorem parseField_unnamed_scalar_dropped_witness :
    parseField 5 0 ("uint256".toList) = none :=
  parseField_unnamed_scalar_dropped.1 5 0 ("uint256".toList) (by decide) (by decide)

/-- C8: validating an empty (or whitespace-only) ABI string fails with
exactly the error `ABI cannot be empty`, sets the validity flag to `false`,
returns `false`, and leaves every piece of derived state — descriptor,
linearization, function signature, value preview, bytecode — untouched. -/
theorem validateAbi_empty_rejected (parse : Str → Except Str ParsedAbi)
    (s : Str) (st : AbiState) (h : trimStr s = []) :
    validateAbi parse s st =
      ({ st with error := "ABI cannot be empty".toList, isValid := false }, false) := by
  unfold validateAbi
  rw [if_pos h]

/-- C8 witness: the theorem applied to the whitespace signature `"  "` and a
concrete prior state. -/
theorem validateAbi_empty_rejected_witness :
    validateAbi (fun _ => .error ("x".toList)) ("  ".toList)
      { isValid := true, error := [], abiObject := none, linearizedAbi := [],
        functionSignature := "f()".toList, valuePreview := "1".toList,
        bytecode := "0xab".toList } =
      ({ isValid := false, error := "ABI cannot be empty".toList, abiObject := none,
         linearizedAbi := [], functionSignature := "f()".toList,
         valuePreview := "1".toList, bytecode := "0xab".toList }, false) :=
  validateAbi_empty_rejected _ _ _ (by decide)

/-- A value whose trim is empty cannot be the literal `false`. -/
theorem trimStr_empty_ne_false {v : Str} (h : trimStr v = []) : v ≠ "false".toList := by
  intro hv
  subst hv
  exact absurd h (by decide)

/-- Rewriting brackets to parentheses is idempotent: no bracket survives the
first rewrite. -/
theorem replaceBrackets_idempotent (s : Str) :
    replaceBrackets (replaceBrackets s) = replaceBrackets s := by
  unfold replaceBrackets
  simp only [List.map_map]
  apply List.map_congr_left
  intro c _
  by_cases h1 : c = '['
  · simp [h1]
  · by_cases h2 : c = ']' <;> simp [h1, h2]

/-- C9: the tuple-aware assembler first rewrites every `[` to `(` and every
`]` to `)` across the whole argument string — quoted string literals
included — so its parse only ever sees the rewritten string (first
conjunct), a string literal with brackets reaches the encoder with
parentheses instead (second conjunct), and an array literal and the
corresponding tuple literal are indistinguishable (third conjunct). -/
theorem combineTx_bracket_rewrite :
    (∀ s : Str, combineTxArgs s = combineTxArgs (replaceBrackets s))
    ∧ combineTxArgs ("\"a[1]\"".toList) = some [.jstr ("a(1)".toList)]
    ∧ combineTxArgs ("[1, 2]".toList) = combineTxArgs ("(1, 2)".toList)
    ∧ replaceBrackets ("\"a[1]\"".toList) = "\"a(1)\"".toList := by
  refine ⟨?_, rfl, rfl, rfl⟩
  intro s
  unfold combineTxArgs
  rw [replaceBrackets_idempotent]

/-- C7 (amended): the empty-value rule of the validator.  For every type
other than `string` and `tuple`, an empty or whitespace-only value is
rejected by both `validateInput` and `validateSingleValue`; `validateInput`
accepts the empty value for `string` via its early return, but
`validateSingleValue` rejects it because its emptiness guard runs before its
`string` case; the literal `false` is never stopped by the emptiness guard —
`validateInput` passes it straight to the per-type checks — and it validates
as a `bool`. -/
theorem validator_empty_value_rule :
    (∀ (ty v : Str), ty ≠ "string".toList → ty ≠ "tuple".toList → trimStr v = [] →
      validateInput false false ty v = false ∧ validateSingleValue v ty = false)
    ∧ validateInput false false ("string".toList) [] = true
    ∧ validateSingleValue [] ("string".toList) = false
    ∧ (∀ ty : Str, validateInput false false ty ("false".toList) =
        if ty = "string".toList then true else validateTypeChecks ty ("false".toList))
    ∧ validateInput false false ("bool".toList) ("false".toList) = true
    ∧ validateSingleValue ("false".toList) ("bool".toList) = true := by
  refine ⟨?_, rfl, rfl, ?_, rfl, rfl⟩
  · intro ty v h1 h2 h3
    constructor
    · unfold validateInput
      rw [if_neg (by simpa using h1), if_pos ⟨h3, trimStr_empty_ne_false h3⟩]
    · unfold validateSingleValue
      rw [if_neg h2, if_pos ⟨h3, trimStr_empty_ne_false h3⟩]
  · intro ty
    unfold validateInput
    by_cases hs : ty = "string".toList
    · rw [if_pos (by simpa using hs), if_pos hs]
    · rw [if_neg (by simpa using hs), if_neg hs,
        if_neg (by simp [show trimStr ("false".toList) ≠ [] by decide])]

/-- C7 counterexample: the claim accepts the empty value for type `string`,
but the array-item validator `validateSingleValue` rejects it — its
emptiness guard precedes its `string` case. -/
theorem validateSingleValue_rejects_empty_string :
    validateSingleValue [] ("string".toList) = false := rfl

/-- C7 witness: the amended rule applied to type `uint8` with a
whitespace-only value. -/
theorem validator_empty_value_rule_witness :
    validateInput false false ("uint8".toList) (" ".toList) = false
    ∧ validateSingleValue (" ".toList) ("uint8".toList) = false :=
  validator_empty_value_rule.1 ("uint8".toList) (" ".toList)
    (by decide) (by decide) (by decide)

/-- C6: for a field item that (after trimming) does not start with `(`, the
word rule of `parseTypeAndName`: with two or more space-separated words the
last word is the name unless it is a recognized type qualifier, in which
case there is no name and the whole word sequence is the type; a single word
is a bare type with an empty name. -/
theorem parseTypeAndName_word_rule (item : Str)
    (hparen : ¬ startsWithStr ("(".toList) (trimStr item) = true) :
    (2 ≤ ((splitChar ' ' (trimStr item)).filter (· ≠ [])).length →
      parseTypeAndName item =
        (if typeModifiers.contains
            (((splitChar ' ' (trimStr item)).filter (· ≠ [])).getLastD []) then
          (joinSep (" ".toList) ((splitChar ' ' (trimStr item)).filter (· ≠ [])), ([] : Str))
        else
          (joinSep (" ".toList) (((splitChar ' ' (trimStr item)).filter (· ≠ [])).dropLast),
           ((splitChar ' ' (trimStr item)).filter (· ≠ [])).getLastD [])))
    ∧ (((splitChar ' ' (trimStr item)).filter (· ≠ [])).length = 1 →
        parseTypeAndName item =
          (((splitChar ' ' (trimStr item)).filter (· ≠ [])).headD [], ([] : Str))) := by
  constructor
  · intro hlen
    unfold parseTypeAndName
    rw [if_neg (by
      intro he
      rw [he] at hlen
      simp [splitChar] at hlen), if_neg hparen, if_neg (by omega)]
  · intro hlen
    unfold parseTypeAndName
    rw [if_neg (by
      intro he
      rw [he] at hlen
      simp [splitChar] at hlen), if_neg hparen, if_pos hlen]

/-- C6 witness: the word rule on `address payable` (qualifier folded into
the type, no name) and on `uint256 amount` (last word is the name). -/
theorem parseTypeAndName_word_rule_witness :
    parseTypeAndName ("address payable".toList) = ("address payable".toList, [])
    ∧ parseTypeAndName ("uint256 amount".toList) = ("uint256".toList, "amount".toList) :=
  ⟨((parseTypeAndName_word_rule ("address payable".toList) (by decide)).1
      (by decide)).trans (by decide),
   ((parseTypeAndName_word_rule ("uint256 amount".toList) (by decide)).1
      (by decide)).trans (by decide)⟩

/-- Characterization of `validateInput` on a `uint` type string: acceptance
is exactly "nonempty after trimming, parses under `BigInt`, non-negative,
and within `2^N - 1` unless the type is literally `uint256`, which is not
range-checked". -/
theorem validateInput_uint_iff (ty : Str) (N : Nat) (v : Str)
    (hsw : startsWithStr ("uint".toList) ty = true)
    (hstr : ty ≠ "string".toList)
    (h256 : ty = "uint256".toList ↔ N = 256)
    (hbits : N ≠ 256 → jsParseInt (replaceFirst ty ("uint".toList) []) = some (N : Int)) :
    validateInput false false ty v = true ↔
      (trimStr v ≠ [] ∧ ∃ x : Int, jsParseBigInt v = some x ∧ 0 ≤ x ∧
        (N = 256 ∨ x ≤ 2 ^ N - 1)) := by
  unfold validateInput validateTypeChecks
  rw [if_neg (by simpa using hstr)]
  by_cases hg : trimStr v = []
  · rw [if_pos ⟨hg, trimStr_empty_ne_false hg⟩]
    simp [hg]
  · rw [if_neg (by intro h; exact hg h.1), if_pos hsw]
    cases hv : jsParseBigInt v with
    | none => simp [hv, hg]
    | some x =>
      dsimp only
      by_cases hx : x < 0
      · rw [if_pos hx]
        simp only [hv, Bool.false_eq_true, false_iff]
        intro h
        obtain ⟨-, x', hx', hge, -⟩ := h
        rw [Option.some_inj] at hx'
        omega
      · rw [if_neg hx]
        push_neg at hx
        by_cases h2 : ty = "uint256".toList
        · have hN : N = 256 := h256.mp h2
          rw [if_neg (by simp [h2])]
          simp [hv, hg, hN, hx]
        · have hN : N ≠ 256 := fun h => h2 (h256.mpr h)
          rw [if_pos h2, hbits hN]
          simp only [jsShl, Int.natCast_nonneg, if_pos, decide_eq_true_eq, hv, hg,
            ne_eq, not_false_eq_true, true_and, Option.some_inj]
          constructor
          · intro h
            refine ⟨x, rfl, hx, Or.inr ?_⟩
            simpa [Int.toNat_natCast] using h
          · rintro ⟨x', rfl, -, h⟩
            rcases h with h | h
            · exact absurd h hN
            · simpa [Int.toNat_natCast] using h

/-- C1 (amended): for `uintN` with `8 ≤ N ≤ 256` a multiple of 8, the
validator accepts a value exactly when it is nonempty after trimming, parses
under JavaScript `BigInt(string)` semantics to a non-negative integer, and —
only for `N < 256` — is at most `2^N - 1`: the range check is skipped for
`uint256`, which therefore accepts arbitrarily large values.  Bare `uint` is
not equivalent to `uint256`: its bit width parses as `NaN`, so it rejects
every value.  `validateSingleValue` performs the same per-type checks as
`validateInput` for every type other than `tuple` and `string`. -/
theorem validator_uintN_range :
    (∀ (N : Nat) (v : Str), 8 ≤ N → N ≤ 256 → N % 8 = 0 →
      (validateInput false false (("uint".toList) ++ natToStr N) v = true ↔
        (trimStr v ≠ [] ∧ ∃ x : Int, jsParseBigInt v = some x ∧ 0 ≤ x ∧
          (N = 256 ∨ x ≤ 2 ^ N - 1))))
    ∧ (∀ v : Str, validateInput false false ("uint".toList) v = false)
    ∧ (∀ (ty v : Str), ty ≠ "tuple".toList → ty ≠ "string".toList →
        validateSingleValue v ty = validateInput false false ty v) := by
  refine ⟨?_, ?_, ?_⟩
  · intro N v h8 h256 hmul
    obtain ⟨k, rfl⟩ : ∃ k, N = 8 * k := ⟨N / 8, by omega⟩
    have hk1 : 1 ≤ k := by omega
    have hk2 : k ≤ 32 := by omega
    clear h8 h256 hmul
    interval_cases k <;>
      exact validateInput_uint_iff _ _ v (by decide) (by decide) (by decide)
        (fun _ => by decide)
  · intro v
    unfold validateInput validateTypeChecks
    rw [if_neg (by decide)]
    by_cases hg : trimStr v = []
    · rw [if_pos ⟨hg, trimStr_empty_ne_false hg⟩]
    · rw [if_neg (fun h => hg h.1), if_pos (by decide)]
      cases hv : jsParseBigInt v with
      | none => rfl
      | some x =>
        dsimp only
        by_cases hx : x < 0
        · rw [if_pos hx]
        · rw [if_neg hx, if_pos (by decide),
            show jsParseInt (replaceFirst ("uint".toList) ("uint".toList) []) = none from
              by decide]
  · intro ty v h1 h2
    unfold validateSingleValue validateInput
    rw [if_neg h1,
      if_neg (show ¬ ((false || false || decide (ty = "string".toList)) = true) from by
        simpa using h2)]

/-- C1 counterexample: `uint256` accepts the decimal value `2^256`, which
exceeds `2^256 - 1`, and bare `uint` (claimed equivalent to `uint256`)
rejects even `0`. -/
theorem validator_uint256_unbounded :
    validateInput false false ("uint256".toList)
      ("115792089237316195423570985008687907853269984665640564039457584007913129639936".toList)
      = true
    ∧ jsParseBigInt
      ("115792089237316195423570985008687907853269984665640564039457584007913129639936".toList)
      = some (2 ^ 256)
    ∧ ¬ ((2 ^ 256 : Int) ≤ 2 ^ 256 - 1)
    ∧ validateInput false false ("uint".toList) ("0".toList) = false :=
  ⟨rfl, by decide, by decide, rfl⟩

/-- C1 witness: the amended characterization applied to `uint8` accepts
`255` and rejects `256`. -/
theorem validator_uintN_range_witness :
    validateInput false false (("uint".toList) ++ natToStr 8) ("255".toList) = true
    ∧ validateInput false false (("uint".toList) ++ natToStr 8) ("256".toList) = false :=
  ⟨(validator_uintN_range.1 8 ("255".toList) (by decide) (by decide) (by decide)).mpr
    ⟨by decide, 255, by decide, by decide, Or.inr (by decide)⟩,
   by
    have h := validator_uintN_range.1 8 ("256".toList) (by decide) (by decide) (by decide)
    cases hr : validateInput false false (("uint".toList) ++ natToStr 8) ("256".toList) with
    | false => rfl
    | true =>
      obtain ⟨-, x, hx, -, hor⟩ := h.mp hr
      have hx256 : x = 256 := by
        have h256 : jsParseBigInt ("256".toList) = some 256 := by decide
        rw [h256, Option.some_inj] at hx
        omega
      subst hx256
      rcases hor with h8 | hle
      · omega
      · norm_num at hle⟩

/-! ### Character-class and trim facts -/

/-- An identifier character is none of the separator characters. -/
theorem identChar_facts {c : Char} (h : identChar c = true) :
    c ≠ '(' ∧ c ≠ ')' ∧ c ≠ ',' ∧ c ≠ '[' ∧ c ≠ ']' ∧ isWsChar c = false := by
  refine ⟨?_, ?_, ?_, ?_, ?_, ?_⟩
  · intro he; subst he; exact absurd h (by decide)
  · intro he; subst he; exact absurd h (by decide)
  · intro he; subst he; exact absurd h (by decide)
  · intro he; subst he; exact absurd h (by decide)
  · intro he; subst he; exact absurd h (by decide)
  · cases hw : isWsChar c with
    | false => rfl
    | true =>
      have : c = ' ' ∨ c = '\t' ∨ c = '\n' ∨ c = '\r' := by
        simpa [isWsChar, or_assoc] using hw
      rcases this with rfl | rfl | rfl | rfl <;> exact absurd h (by decide)

/-- A type character is none of the structural characters of a signature. -/
theorem typeCharOk_facts {c : Char} (h : typeCharOk c = true) :
    c ≠ '(' ∧ c ≠ ')' ∧ c ≠ ',' ∧ c ≠ ' ' ∧ isWsChar c = false := by
  have h' : identChar c = true ∨ c = '[' ∨ c = ']' := by
    simpa [typeCharOk, or_assoc] using h
  rcases h' with hi | rfl | rfl
  · obtain ⟨h1, h2, h3, -, -, h6⟩ := identChar_facts hi
    exact ⟨h1, h2, h3, fun he => by subst he; exact absurd hi (by decide), h6⟩
  · exact ⟨by decide, by decide, by decide, by decide, by decide⟩
  · exact ⟨by decide, by decide, by decide, by decide, by decide⟩

/-- A digit character is not a bracket and not whitespace. -/
theorem isDigitChar_facts {c : Char} (h : isDigitChar c = true) :
    c ≠ '[' ∧ c ≠ ']' ∧ isWsChar c = false := by
  refine ⟨?_, ?_, ?_⟩
  · intro he; subst he; exact absurd h (by decide)
  · intro he; subst he; exact absurd h (by decide)
  · cases hw : isWsChar c with
    | false => rfl
    | true =>
      have : c = ' ' ∨ c = '\t' ∨ c = '\n' ∨ c = '\r' := by
        simpa [isWsChar, or_assoc] using hw
      rcases this with rfl | rfl | rfl | rfl <;> exact absurd h (by decide)

/-- Dropping while a predicate fails at the head changes nothing. -/
theorem dropWhile_eq_self_of_head {p : Char → Bool} {s : Str}
    (h : ∀ c, s.head? = some c → p c = false) : s.dropWhile p = s := by
  cases s with
  | nil => rfl
  | cons a t =>
    rw [List.dropWhile_cons, if_neg (by simp [h a rfl])]

/-- A string whose two ends are not whitespace is unchanged by `trimStr`. -/
theorem trimStr_eq_self {s : Str}
    (h1 : ∀ c, s.head? = some c → isWsChar c = false)
    (h2 : ∀ c, s.getLast? = some c → isWsChar c = false) : trimStr s = s := by
  unfold trimStr
  rw [dropWhile_eq_self_of_head h1, dropWhile_eq_self_of_head
    (fun c hc => h2 c (by rwa [List.head?_reverse] at hc)), List.reverse_reverse]

/-- `trimStr` absorbs a leading space. -/
theorem trimStr_cons_space (s : Str) : trimStr (' ' :: s) = trimStr s := by
  simp [trimStr, List.dropWhile_cons, isWsChar]

/-! ### Scanner composition facts -/

/-- Consuming a scanned segment moves `itemScan` to the segment's final
depth. -/
theorem itemScan_append {s : Str} : ∀ {j j' : Nat} {b : Str},
    itemScan s j = some j' → itemScan (s ++ b) j = itemScan b j' := by
  induction s with
  | nil =>
    intro j j' b hs
    simp only [itemScan, Option.some_inj] at hs
    subst hs
    rfl
  | cons c tl ih =>
    intro j j' b hs
    rw [List.cons_append]
    by_cases h1 : c = '('
    · subst h1
      rw [itemScan, if_pos rfl] at hs
      rw [itemScan, if_pos rfl]
      exact ih hs
    · by_cases h2 : c = ')'
      · subst h2
        rw [itemScan, if_neg (by decide), if_pos rfl] at hs
        rw [itemScan, if_neg (by decide), if_pos rfl]
        by_cases hj : j = 0
        · rw [if_pos hj] at hs
          exact absurd hs (by simp)
        · rw [if_neg hj] at hs
          rw [if_neg hj]
          exact ih hs
      · by_cases h3 : c = ',' ∧ j = 0
        · rw [itemScan, if_neg h1, if_neg h2, if_pos h3] at hs
          exact absurd hs (by simp)
        · rw [itemScan, if_neg h1, if_neg h2, if_neg h3] at hs
          rw [itemScan, if_neg h1, if_neg h2, if_neg h3]
          exact ih hs

/-- Consuming a scanned segment moves `balScan` to the segment's final
depth. -/
theorem balScan_append {s : Str} : ∀ {j j' : Nat} {b : Str},
    balScan s j = some j' → balScan (s ++ b) j = balScan b j' := by
  induction s with
  | nil =>
    intro j j' b hs
    simp only [balScan, Option.some_inj] at hs
    subst hs
    rfl
  | cons c tl ih =>
    intro j j' b hs
    rw [List.cons_append]
    by_cases h1 : c = '('
    · subst h1
      rw [balScan, if_pos rfl] at hs
      rw [balScan, if_pos rfl]
      exact ih hs
    · by_cases h2 : c = ')'
      · subst h2
        rw [balScan, if_neg (by decide), if_pos rfl] at hs
        rw [balScan, if_neg (by decide), if_pos rfl]
        by_cases hj : j = 0
        · rw [if_pos hj] at hs
          exact absurd hs (by simp)
        · rw [if_neg hj] at hs
          rw [if_neg hj]
          exact ih hs
      · rw [balScan, if_neg h1, if_neg h2] at hs
        rw [balScan, if_neg h1, if_neg h2]
        exact ih hs

/-- A comma-restricted scan is in particular a balanced scan. -/
theorem balScan_of_itemScan {s : Str} : ∀ {j j' : Nat},
    itemScan s j = some j' → balScan s j = some j' := by
  induction s with
  | nil => intro j j' hs; exact hs
  | cons c tl ih =>
    intro j j' hs
    by_cases h1 : c = '('
    · subst h1
      rw [itemScan, if_pos rfl] at hs
      rw [balScan, if_pos rfl]
      exact ih hs
    · by_cases h2 : c = ')'
      · subst h2
        rw [itemScan, if_neg (by decide), if_pos rfl] at hs
        rw [balScan, if_neg (by decide), if_pos rfl]
        by_cases hj : j = 0
        · rw [if_pos hj] at hs
          exact absurd hs (by simp)
        · rw [if_neg hj] at hs
          rw [if_neg hj]
          exact ih hs
      · by_cases h3 : c = ',' ∧ j = 0
        · rw [itemScan, if_neg h1, if_neg h2, if_pos h3] at hs
          exact absurd hs (by simp)
        · rw [itemScan, if_neg h1, if_neg h2, if_neg h3] at hs
          rw [balScan, if_neg h1, if_neg h2]
          exact ih hs

/-- A string without parentheses or commas scans at constant depth. -/
theorem itemScan_all_nonstructural {s : Str}
    (h : ∀ c ∈ s, c ≠ '(' ∧ c ≠ ')' ∧ c ≠ ',') : ∀ j, itemScan s j = some j := by
  induction s with
  | nil => intro j; rfl
  | cons c tl ih =>
    intro j
    obtain ⟨h1, h2, h3⟩ := h c (by simp)
    rw [itemScan, if_neg h1, if_neg h2, if_neg (fun hc => h3 hc.1)]
    exact ih (fun c hc => h c (by simp [hc])) j

/-! ### Split and join facts -/

theorem splitChar_nosep {sep : Char} {s : Str} (h : ∀ c ∈ s, ¬ c = sep) :
    splitChar sep s = [s] := by
  induction s with
  | nil => rfl
  | cons c tl ih =>
    have hr : splitChar sep tl = [tl] := ih (fun c hc => h c (by simp [hc]))
    rw [splitChar]
    simp only [hr]
    rw [if_neg (h c (by simp))]

theorem splitChar_append {sep : Char} {a : Str} (h : ∀ c ∈ a, ¬ c = sep) :
    ∀ {b hd t : _}, splitChar sep b = hd :: t →
      splitChar sep (a ++ b) = (a ++ hd) :: t := by
  induction a with
  | nil => intro b hd t hb; simpa using hb
  | cons c tl ih =>
    intro b hd t hb
    rw [List.cons_append, splitChar]
    simp only [ih (fun c hc => h c (by simp [hc])) hb]
    rw [if_neg (h c (by simp))]
    simp

theorem joinSep_ne_nil {sep : Str} {i : Str} {rest : List Str} (hi : i ≠ []) :
    joinSep sep (i :: rest) ≠ [] := by
  cases rest with
  | nil => simpa [joinSep] using hi
  | cons j r =>
    rw [joinSep]
    simp only [ne_eq, List.append_eq_nil]
    intro ⟨⟨h1, _⟩, _⟩
    exact hi h1

theorem joinSep_head_not_ws {items : List Str} (h : ∀ i ∈ items, ItemOk i) :
    ∀ c, (joinSep (", ".toList) items).head? = some c → isWsChar c = false := by
  cases items with
  | nil => intro c hc; simp [joinSep] at hc
  | cons i rest =>
    have hio := h i (by simp)
    intro c hc
    apply hio.2.2.1
    cases rest with
    | nil => simpa [joinSep] using hc
    | cons j r =>
      rw [joinSep] at hc
      obtain ⟨a, t, rfl⟩ : ∃ a t, i = a :: t := by
        cases i with
        | nil => exact absurd rfl hio.2.1
        | cons a t => exact ⟨a, t, rfl⟩
      simpa using hc

theorem joinSep_last_not_ws {items : List Str} (h : ∀ i ∈ items, ItemOk i) :
    ∀ c, (joinSep (", ".toList) items).getLast? = some c → isWsChar c = false := by
  induction items with
  | nil => intro c hc; simp [joinSep] at hc
  | cons i rest ih =>
    intro c hc
    cases rest with
    | nil => exact (h i (by simp)).2.2.2 c (by simpa [joinSep] using hc)
    | cons j r =>
      rw [joinSep, List.getLast?_append_of_ne_nil _
        (joinSep_ne_nil (h j (by simp)).2.1)] at hc
      exact ih (fun x hx => h x (by simp [hx])) c hc

theorem joinSep_balScan {items : List Str} (h : ∀ i ∈ items, itemScan i 0 = some 0) :
    balScan (joinSep (", ".toList) items) 0 = some 0 := by
  induction items with
  | nil => rfl
  | cons i rest ih =>
    cases rest with
    | nil => exact balScan_of_itemScan (h i (by simp))
    | cons j r =>
      rw [joinSep, List.append_assoc,
        balScan_append (balScan_of_itemScan (h i (by simp)))]
      have h2 : balScan (", ".toList) 0 = some 0 := by decide
      rw [balScan_append h2]
      exact ih (fun x hx => h x (by simp [hx]))

/-! ### Top-level splitting of a joined item list -/

theorem splitTopLevel_advance {s : Str} : ∀ {j j' : Nat} {rest cur : Str} {acc : List Str},
    itemScan s j = some j' →
    splitTopLevel (s ++ rest) (j : Int) cur acc =
      splitTopLevel rest (j' : Int) (cur ++ s) acc := by
  induction s with
  | nil =>
    intro j j' rest cur acc hs
    simp only [itemScan, Option.some_inj] at hs
    subst hs
    simp
  | cons c tl ih =>
    intro j j' rest cur acc hs
    rw [List.cons_append]
    by_cases h1 : c = '('
    · subst h1
      rw [itemScan, if_pos rfl] at hs
      rw [splitTopLevel, if_pos rfl]
      have hcast : (j : Int) + 1 = ((j + 1 : Nat) : Int) := by push_cast; ring
      rw [hcast, ih hs]
      simp
    · by_cases h2 : c = ')'
      · subst h2
        rw [itemScan, if_neg (by decide), if_pos rfl] at hs
        by_cases hj : j = 0
        · rw [if_pos hj] at hs
          exact absurd hs (by simp)
        · rw [if_neg hj] at hs
          rw [splitTopLevel, if_neg (by decide), if_pos rfl]
          have hcast : (j : Int) - 1 = ((j - 1 : Nat) : Int) := by omega
          rw [hcast, ih hs]
          simp
      · by_cases h3 : c = ',' ∧ j = 0
        · rw [itemScan, if_neg h1, if_neg h2, if_pos h3] at hs
          exact absurd hs (by simp)
        · rw [itemScan, if_neg h1, if_neg h2, if_neg h3] at hs
          rw [splitTopLevel, if_neg h1, if_neg h2, if_neg (by
            intro hc
            exact h3 ⟨hc.1, by exact_mod_cast hc.2⟩)]
          rw [ih hs]
          simp

theorem trimStr_pre_item {pre i : Str} (hpre : pre = [] ∨ pre = [' '])
    (hi : ItemOk i) : trimStr (pre ++ i) = i := by
  have hti : trimStr i = i := trimStr_eq_self hi.2.2.1 hi.2.2.2
  rcases hpre with rfl | rfl
  · simpa using hti
  · show trimStr (' ' :: ([] ++ i)) = i
    rw [List.nil_append, trimStr_cons_space]
    exact hti

theorem splitTopLevel_items :
    ∀ (items : List Str), (∀ i ∈ items, ItemOk i) →
    ∀ (pre : Str), (pre = [] ∨ pre = [' ']) → ∀ (acc : List Str),
      splitTopLevel (pre ++ joinSep (", ".toList) items) 0 [] acc = acc ++ items := by
  intro items
  induction items with
  | nil =>
    intro _ pre hpre acc
    rw [joinSep, List.append_nil]
    have hscan : itemScan pre 0 = some 0 := by
      rcases hpre with rfl | rfl
      · rfl
      · decide
    have hadv := @splitTopLevel_advance pre 0 0 [] [] acc hscan
    rw [List.append_nil] at hadv
    rw [show ((0 : Nat) : Int) = (0 : Int) from rfl] at hadv
    rw [hadv]
    rcases hpre with rfl | rfl
    · simp [splitTopLevel]
      decide
    · simp [splitTopLevel]
      decide
  | cons i rest ih =>
    intro h pre hpre acc
    have hitem := h i (by simp)
    have hscan_pre : itemScan pre 0 = some 0 := by
      rcases hpre with rfl | rfl
      · rfl
      · decide
    have hscan_pi : itemScan (pre ++ i) 0 = some 0 := by
      rw [itemScan_append hscan_pre]
      exact hitem.1
    have htrim : trimStr (pre ++ i) = i := trimStr_pre_item hpre hitem
    cases rest with
    | nil =>
      show splitTopLevel (pre ++ i) 0 [] acc = acc ++ [i]
      have hadv := @splitTopLevel_advance (pre ++ i) 0 0 [] [] acc hscan_pi
      rw [List.append_nil] at hadv
      rw [show ((0 : Nat) : Int) = (0 : Int) from rfl] at hadv
      simp only [List.nil_append] at hadv
      rw [hadv, splitTopLevel, if_pos (by simp [htrim, hitem.2.1]), htrim]
    | cons j r =>
      have hass : pre ++ joinSep (", ".toList) (i :: j :: r) =
          (pre ++ i) ++ (',' :: ' ' :: joinSep (", ".toList) (j :: r)) := by
        rw [joinSep]
        simp
      rw [hass]
      have hadv := @splitTopLevel_advance (pre ++ i) 0 0
        (',' :: ' ' :: joinSep (", ".toList) (j :: r)) [] acc hscan_pi
      rw [show ((0 : Nat) : Int) = (0 : Int) from rfl] at hadv
      simp only [List.nil_append] at hadv
      rw [hadv, splitTopLevel, if_neg (by decide), if_neg (by decide),
        if_pos ⟨rfl, rfl⟩, if_pos (by simp [htrim, hitem.2.1]), htrim]
      have := ih (fun x hx => h x (by simp [hx])) [' '] (Or.inr rfl) (acc ++ [i])
      rw [show (' ' :: joinSep (", ".toList) (j :: r)) =
        [' '] ++ joinSep (", ".toList) (j :: r) from rfl, this]
      simp

theorem findCloseParen_transparent {s : Str} : ∀ {j j' : Nat} {rest : Str},
    balScan s j = some j' →
    findCloseParen (s ++ rest) (j + 1) =
      (match findCloseParen rest (j' + 1) with
       | some (seg, rem) => some (s ++ seg, rem)
       | none => none) := by
  induction s with
  | nil =>
    intro j j' rest hs
    simp only [balScan, Option.some_inj] at hs
    subst hs
    simp only [List.nil_append]
    cases findCloseParen rest (j + 1) with
    | none => rfl
    | some pr => cases pr; rfl
  | cons c tl ih =>
    intro j j' rest hs
    rw [List.cons_append]
    by_cases h1 : c = '('
    · subst h1
      rw [balScan, if_pos rfl] at hs
      rw [findCloseParen, if_pos rfl]
      rw [show j + 1 + 1 = (j + 1) + 1 from rfl, ih hs]
      cases findCloseParen rest (j' + 1) with
      | none => rfl
      | some pr => cases pr; rfl
    · by_cases h2 : c = ')'
      · subst h2
        rw [balScan, if_neg (by decide), if_pos rfl] at hs
        by_cases hj : j = 0
        · rw [if_pos hj] at hs
          exact absurd hs (by simp)
        · rw [if_neg hj] at hs
          rw [findCloseParen, if_neg (by decide), if_pos rfl,
            if_neg (by omega)]
          rw [show j + 1 - 1 = (j - 1) + 1 by omega, ih hs]
          cases findCloseParen rest (j' + 1) with
          | none => rfl
          | some pr => cases pr; rfl
      · rw [balScan, if_neg h1, if_neg h2] at hs
        rw [findCloseParen, if_neg h1, if_neg h2, ih hs]
        cases findCloseParen rest (j' + 1) with
        | none => rfl
        | some pr => cases pr; rfl

theorem findCloseParen_wrapped {inner rest : Str} (h : balScan inner 0 = some 0) :
    findCloseParen (('(' :: inner) ++ (')' :: rest)) 0 =
      some (('(' :: inner) ++ [')'], rest) := by
  rw [List.cons_append, findCloseParen, if_pos rfl,
    show (0 : Nat) + 1 = 0 + 1 from rfl, findCloseParen_transparent h]
  rw [show findCloseParen (')' :: rest) (0 + 1) = some ([')'], rest) by
    rw [findCloseParen, if_neg (by decide), if_pos rfl, if_pos rfl]]
  simp

theorem findCloseBracket_nobracket {ds : Str} (h : ∀ c ∈ ds, c ≠ '[' ∧ c ≠ ']') :
    ∀ {rest : Str}, findCloseBracket (ds ++ (']' :: rest)) 1 = some (ds ++ [']'], rest) := by
  induction ds with
  | nil =>
    intro rest
    rw [List.nil_append, findCloseBracket, if_neg (by decide), if_pos rfl, if_pos rfl]
    rfl
  | cons c tl ih =>
    intro rest
    obtain ⟨h1, h2⟩ := h c (by simp)
    rw [List.cons_append, findCloseBracket, if_neg h1, if_neg h2,
      ih (fun x hx => h x (by simp [hx]))]
    simp

theorem findCloseBracket_wrapped {ds : Str} (h : ∀ c ∈ ds, c ≠ '[' ∧ c ≠ ']') :
    ∀ {rest : Str},
      findCloseBracket (('[' :: ds) ++ (']' :: rest)) 0 = some (('[' :: ds) ++ [']'], rest) := by
  intro rest
  rw [List.cons_append, findCloseBracket, if_pos rfl, findCloseBracket_nobracket h]
  simp

theorem itemScan_shift {s : Str} : ∀ {j j' : Nat},
    balScan s j = some j' → itemScan s (j + 1) = some (j' + 1) := by
  induction s with
  | nil =>
    intro j j' hs
    simp only [balScan, Option.some_inj] at hs
    subst hs
    rfl
  | cons c tl ih =>
    intro j j' hs
    by_cases h1 : c = '('
    · subst h1
      rw [balScan, if_pos rfl] at hs
      rw [itemScan, if_pos rfl]
      exact ih hs
    · by_cases h2 : c = ')'
      · subst h2
        rw [balScan, if_neg (by decide), if_pos rfl] at hs
        by_cases hj : j = 0
        · rw [if_pos hj] at hs
          exact absurd hs (by simp)
        · rw [if_neg hj] at hs
          rw [itemScan, if_neg (by decide), if_pos rfl, if_neg (by omega)]
          rw [show j + 1 - 1 = (j - 1) + 1 by omega]
          exact ih hs
      · rw [balScan, if_neg h1, if_neg h2] at hs
        rw [itemScan, if_neg h1, if_neg h2, if_neg (by
          intro hc
          omega)]
        exact ih hs

theorem containsSub_of_isPrefixOf {s pat : Str} (h : pat.isPrefixOf s = true) :
    containsSub s pat = true := by
  rw [containsSub.eq_def]
  dsimp only
  rw [if_pos h]

theorem natToStr_digits (n : Nat) :
    ∀ c ∈ natToStr n, isDigitChar c = true ∧ identChar c = true := by
  unfold natToStr
  generalize hf : n + 1 = fuel
  have hle : n < fuel := by omega
  clear hf
  induction fuel generalizing n with
  | zero => omega
  | succ f ih =>
    rw [natToStr.go]
    by_cases h10 : n < 10
    · rw [if_pos h10]
      intro c hc
      simp only [List.mem_singleton] at hc
      subst hc
      interval_cases n <;> decide
    · rw [if_neg h10]
      intro c hc
      rw [List.mem_append] at hc
      rcases hc with hc | hc
      · exact ih (n / 10) (by omega) c hc
      · simp only [List.mem_singleton] at hc
        subst hc
        have : n % 10 < 10 := Nat.mod_lt _ (by omega)
        interval_cases h : n % 10 <;> simp_all <;> decide

theorem param_prefix_not_modifier (ds : Str) :
    typeModifiers.contains (('p' :: 'a' :: 'r' :: 'a' :: 'm' :: ds)) = false := by
  simp [typeModifiers]

theorem paramName_facts {nm : Str} (i : Nat) (hnm : nm.all identChar = true)
    (hmod : typeModifiers.contains nm = false) :
    ((if nm = [] then ("param".toList) ++ natToStr i else nm).all identChar = true)
    ∧ (if nm = [] then ("param".toList) ++ natToStr i else nm) ≠ []
    ∧ typeModifiers.contains
        (if nm = [] then ("param".toList) ++ natToStr i else nm) = false := by
  by_cases h : nm = []
  · simp only [if_pos h]
    refine ⟨?_, by simp, param_prefix_not_modifier _⟩
    rw [List.all_eq_true]
    intro c hc
    rw [List.mem_append] at hc
    rcases hc with hc | hc
    · fin_cases hc <;> decide
    · exact (natToStr_digits i c hc).2
  · simp only [if_neg h]
    exact ⟨hnm, h, hmod⟩

theorem getLast?_mem_str {l : Str} {x : Char} (h : l.getLast? = some x) : x ∈ l := by
  obtain ⟨hne, heq⟩ := List.mem_getLast?_eq_getLast (Option.mem_def.mpr h)
  rw [heq]
  exact List.getLast_mem hne

theorem parseTypeAndName_leaf {ty nm : Str}
    (hty : ty.all typeCharOk = true) (htne : ty ≠ [])
    (hnm : nm.all identChar = true) (hne : nm ≠ [])
    (hmod : typeModifiers.contains nm = false) :
    parseTypeAndName (ty ++ (' ' :: nm)) = (ty, nm) := by
  have htyc : ∀ c ∈ ty, typeCharOk c = true := by simpa [List.all_eq_true] using hty
  have hnmc : ∀ c ∈ nm, identChar c = true := by simpa [List.all_eq_true] using hnm
  have hnm_nospace : ∀ c ∈ nm, ¬ c = ' ' := by
    intro c hc he
    subst he
    exact absurd (hnmc ' ' hc) (by decide)
  have hty_nospace : ∀ c ∈ ty, ¬ c = ' ' := by
    intro c hc he
    subst he
    exact absurd (htyc ' ' hc) (by decide)
  obtain ⟨a, t, rfl⟩ : ∃ a t, ty = a :: t := by
    cases ty with
    | nil => exact absurd rfl htne
    | cons a t => exact ⟨a, t, rfl⟩
  have hhead : ∀ c, ((a :: t) ++ (' ' :: nm)).head? = some c → isWsChar c = false := by
    intro c hc
    rw [List.cons_append, List.head?_cons] at hc
    injection hc with hc
    subst hc
    exact (typeCharOk_facts (htyc a (by simp))).2.2.2.2
  have hlast : ∀ c, ((a :: t) ++ (' ' :: nm)).getLast? = some c → isWsChar c = false := by
    intro c hc
    rw [List.getLast?_append_of_ne_nil _ (by simp),
      show (' ' :: nm) = [' '] ++ nm from rfl,
      List.getLast?_append_of_ne_nil _ hne] at hc
    exact (identChar_facts (hnmc c (getLast?_mem_str hc))).2.2.2.2.2
  have htrim : trimStr ((a :: t) ++ (' ' :: nm)) = (a :: t) ++ (' ' :: nm) :=
    trimStr_eq_self hhead hlast
  have hb1 : splitChar ' ' (' ' :: nm) = [] :: splitChar ' ' nm := by
    rw [splitChar]
    simp
  have hb : splitChar ' ' (' ' :: nm) = [] :: [nm] := by
    rw [hb1, splitChar_nosep hnm_nospace]
  have hsplit : splitChar ' ' ((a :: t) ++ (' ' :: nm)) = [a :: t, nm] := by
    have := splitChar_append hty_nospace hb
    simpa using this
  unfold parseTypeAndName
  rw [htrim]
  rw [if_neg (by simp), if_neg (by
    have ha := (typeCharOk_facts (htyc a (by simp))).1
    simp [startsWithStr, List.isPrefixOf, Ne.symm ha])]
  rw [hsplit]
  rw [show ([a :: t, nm].filter (· ≠ [])) = [a :: t, nm] by
    simp [List.filter, hne]]
  rw [if_neg (by simp)]
  simp only [List.getLastD_eq_getLast?, List.getLast?_cons_cons]
  rw [show ([a :: t, nm] : List Str).dropLast = [a :: t] from rfl]
  simp [joinSep]
  simpa using hmod

theorem parseTypeAndName_tuple {inner sfx nm : Str}
    (hinner : balScan inner 0 = some 0)
    (hsfx : sfx = [] ∨ ∃ ds : Str, ds.all isDigitChar = true ∧ sfx = ('[' :: ds) ++ [']'])
    (hnm : nm.all identChar = true) (hne : nm ≠ []) :
    parseTypeAndName (('(' :: inner) ++ (')' :: (sfx ++ (' ' :: nm)))) =
      ((('(' :: inner) ++ [')']) ++ sfx, nm) := by
  have hnmc : ∀ c ∈ nm, identChar c = true := by simpa [List.all_eq_true] using hnm
  have hnm_nospace : ∀ c ∈ nm, ¬ c = ' ' := by
    intro c hc he
    subst he
    exact absurd (hnmc ' ' hc) (by decide)
  have htrim_nm : trimStr nm = nm := by
    refine trimStr_eq_self (fun c hc => ?_) (fun c hc => ?_)
    · exact (identChar_facts (hnmc c (List.mem_of_mem_head? (Option.mem_def.mpr hc)))).2.2.2.2.2
    · exact (identChar_facts (hnmc c (getLast?_mem_str hc))).2.2.2.2.2
  have hlast_nm : ∀ c, (' ' :: nm).getLast? = some c → isWsChar c = false := by
    intro c hc
    rw [show (' ' :: nm) = [' '] ++ nm from rfl,
      List.getLast?_append_of_ne_nil _ hne] at hc
    exact (identChar_facts (hnmc c (getLast?_mem_str hc))).2.2.2.2.2
  have hhead : ∀ c, (('(' :: inner) ++ (')' :: (sfx ++ (' ' :: nm)))).head? = some c →
      isWsChar c = false := by
    intro c hc
    rw [List.cons_append, List.head?_cons] at hc
    injection hc with hc
    subst hc
    decide
  have hlast : ∀ c, (('(' :: inner) ++ (')' :: (sfx ++ (' ' :: nm)))).getLast? = some c →
      isWsChar c = false := by
    intro c hc
    rw [List.getLast?_append_of_ne_nil _ (by simp),
      show (')' :: (sfx ++ (' ' :: nm))) = [')'] ++ (sfx ++ (' ' :: nm)) from rfl,
      List.getLast?_append_of_ne_nil _ (by simp),
      List.getLast?_append_of_ne_nil _ (by simp)] at hc
    exact hlast_nm c hc
  unfold parseTypeAndName
  rw [trimStr_eq_self hhead hlast]
  rw [if_neg (by simp), if_pos (by simp [startsWithStr, List.isPrefixOf])]
  rw [findCloseParen_wrapped hinner]
  dsimp only
  rw [if_neg (by simp)]
  rcases hsfx with rfl | ⟨ds, hds_all, rfl⟩
  · simp only [List.nil_append]
    rw [trimStr_cons_space, htrim_nm]
    obtain ⟨a, t, rfl⟩ : ∃ a t, nm = a :: t := by
      cases nm with
      | nil => exact absurd rfl hne
      | cons a t => exact ⟨a, t, rfl⟩
    have ha : a ≠ '[' := (identChar_facts (hnmc a (by simp))).2.2.2.1
    rw [if_neg (by simp [startsWithStr, List.isPrefixOf, Ne.symm ha])]
    rw [show ((splitChar ' ' (a :: t)).filter (· ≠ [])) = [a :: t] by
      rw [splitChar_nosep hnm_nospace]
      simp [List.filter]]
    simp [joinSep]
  · have hds : ∀ c ∈ ds, c ≠ '[' ∧ c ≠ ']' := by
      intro c hc
      have := isDigitChar_facts (by
        have := List.all_eq_true.mp hds_all c hc
        simpa using this)
      exact ⟨this.1, this.2.1⟩
    have htr : trimStr ((('[' :: ds) ++ [']']) ++ (' ' :: nm)) =
        (('[' :: ds) ++ [']']) ++ (' ' :: nm) := by
      refine trimStr_eq_self (fun c hc => ?_) (fun c hc => ?_)
      · rw [List.cons_append, List.cons_append, List.head?_cons] at hc
        injection hc with hc
        subst hc
        decide
      · rw [List.getLast?_append_of_ne_nil _ (by simp)] at hc
        exact hlast_nm c hc
    rw [htr]
    rw [if_pos (by simp [startsWithStr, List.isPrefixOf])]
    rw [show ((('[' :: ds) ++ [']']) ++ (' ' :: nm)) = (('[' :: ds) ++ (']' :: (' ' :: nm)))
      by simp, findCloseBracket_wrapped hds]
    dsimp only
    rw [trimStr_cons_space, htrim_nm]

theorem isPrefixOf_append_self (p s : Str) : p.isPrefixOf (p ++ s) = true := by
  induction p with
  | nil => simp [List.isPrefixOf]
  | cons c tl ih => simp [List.isPrefixOf, ih]

theorem isDigitChar_facts2 {c : Char} (h : isDigitChar c = true) :
    c ≠ '(' ∧ c ≠ ')' ∧ c ≠ ',' := by
  refine ⟨?_, ?_, ?_⟩ <;>
    · intro he
      subst he
      exact absurd h (by decide)

theorem formatComps_cons (c : AbiParam) (rest : List AbiParam) (j : Nat) :
    formatComps (c :: rest) j = formatCompItem c j :: formatComps rest (j + 1) := rfl

theorem mem_formatComps : ∀ (cs : List AbiParam) (j : Nat) (s : Str),
    s ∈ formatComps cs j → ∃ c, c ∈ cs ∧ ∃ k, s = formatCompItem c k := by
  intro cs
  induction cs with
  | nil =>
    intro j s hs
    simp [formatComps] at hs
  | cons c rest ih =>
    intro j s hs
    rw [formatComps_cons] at hs
    rcases List.mem_cons.mp hs with h | h
    · exact ⟨c, by simp, j, h⟩
    · obtain ⟨d, hd, k, hk⟩ := ih (j + 1) s h
      exact ⟨d, by simp [hd], k, hk⟩

theorem formatTupleType_tuple (sfx nm : Str) (cs : List AbiParam) :
    formatTupleType (.mk (("tuple".toList) ++ sfx) nm (some cs)) =
      (('(' :: joinSep (", ".toList) (formatComps cs 0)) ++ [')']) ++ sfx := by
  rw [formatTupleType]
  dsimp only
  rw [if_pos (containsSub_of_isPrefixOf (isPrefixOf_append_self _ _))]
  by_cases h : sfx = []
  · subst h
    rw [if_pos (by simp)]
    simp
  · rw [if_neg (fun he => h (List.append_cancel_left (he.trans (List.append_nil _).symm)))]
    rw [show (5 : Nat) = ("tuple".toList).length from rfl, List.drop_left]

theorem wfcomp_item {c : AbiParam} (hc : WfComp c) : ∀ i : Nat,
    ItemOk (formatCompItem c i) ∧
    parseTypeAndName (formatCompItem c i) = (expandedCompType c, displayName c i) := by
  induction hc with
  | leaf ty nm hty htne hnm hmod =>
    intro i
    have hmod' : typeModifiers.contains nm = false := by simpa using hmod
    have hpn := paramName_facts i hnm hmod'
    have htyc : ∀ c ∈ ty, typeCharOk c = true := by simpa [List.all_eq_true] using hty
    have hpnc : ∀ c ∈ (if nm = [] then ("param".toList) ++ natToStr i else nm),
        identChar c = true := by simpa [List.all_eq_true] using hpn.1
    have hitem : formatCompItem (.mk ty nm none) i =
        ty ++ (' ' :: (if nm = [] then ("param".toList) ++ natToStr i else nm)) := by
      rw [formatCompItem]
      dsimp only [AbiParam.name, AbiParam.type, AbiParam.components]
      rw [if_neg (by simp)]
    have hexp : expandedCompType (.mk ty nm none) = ty := by
      rw [expandedCompType]
      dsimp only [AbiParam.type, AbiParam.components]
      rw [if_neg (by simp)]
    have hdn : displayName (.mk ty nm none) i =
        (if nm = [] then ("param".toList) ++ natToStr i else nm) := rfl
    have hns : ∀ c ∈ ty ++ (' ' :: (if nm = [] then ("param".toList) ++ natToStr i else nm)),
        c ≠ '(' ∧ c ≠ ')' ∧ c ≠ ',' := by
      intro c hcc
      rw [List.mem_append, List.mem_cons] at hcc
      rcases hcc with hcc | rfl | hcc
      · have := typeCharOk_facts (htyc c hcc)
        exact ⟨this.1, this.2.1, this.2.2.1⟩
      · exact ⟨by decide, by decide, by decide⟩
      · have := identChar_facts (hpnc c hcc)
        exact ⟨this.1, this.2.1, this.2.2.1⟩
    have hhead : ∀ c, (ty ++ (' ' :: (if nm = [] then ("param".toList) ++ natToStr i
        else nm))).head? = some c → isWsChar c = false := by
      obtain ⟨a, t, rfl⟩ : ∃ a t, ty = a :: t := by
        cases ty with
        | nil => exact absurd rfl htne
        | cons a t => exact ⟨a, t, rfl⟩
      intro c hcc
      rw [List.cons_append, List.head?_cons] at hcc
      injection hcc with hcc
      subst hcc
      exact (typeCharOk_facts (htyc a (by simp))).2.2.2.2
    have hlast : ∀ c, (ty ++ (' ' :: (if nm = [] then ("param".toList) ++ natToStr i
        else nm))).getLast? = some c → isWsChar c = false := by
      intro c hcc
      rw [List.getLast?_append_of_ne_nil _ (by simp),
        show (' ' :: (if nm = [] then ("param".toList) ++ natToStr i else nm)) =
          [' '] ++ (if nm = [] then ("param".toList) ++ natToStr i else nm) from rfl,
        List.getLast?_append_of_ne_nil _ hpn.2.1] at hcc
      exact (identChar_facts (hpnc c (getLast?_mem_str hcc))).2.2.2.2.2
    refine ⟨?_, ?_⟩
    · rw [hitem]
      exact ⟨itemScan_all_nonstructural hns 0, by simp, hhead, hlast⟩
    · rw [hitem, hexp, hdn]
      exact parseTypeAndName_leaf hty htne hpn.1 hpn.2.1 hpn.2.2
  | tuple sfx nm cs hsfx hnm hmod hcs ih =>
    intro i
    have hmod' : typeModifiers.contains nm = false := by simpa using hmod
    have hpn := paramName_facts i hnm hmod'
    have hpnc : ∀ c ∈ (if nm = [] then ("param".toList) ++ natToStr i else nm),
        identChar c = true := by simpa [List.all_eq_true] using hpn.1
    have hitems : ∀ s ∈ formatComps cs 0, ItemOk s := by
      intro s hs
      obtain ⟨d, hd, k, rfl⟩ := mem_formatComps cs 0 s hs
      exact (ih d hd k).1
    have hbal : balScan (joinSep (", ".toList) (formatComps cs 0)) 0 = some 0 :=
      joinSep_balScan (fun s hs => (hitems s hs).1)
    have hcontains : containsSub (("tuple".toList) ++ sfx) ("tuple".toList) = true :=
      containsSub_of_isPrefixOf (isPrefixOf_append_self _ _)
    have hitem : formatCompItem (.mk (("tuple".toList) ++ sfx) nm (some cs)) i =
        ('(' :: joinSep (", ".toList) (formatComps cs 0)) ++
          (')' :: (sfx ++ (' ' :: (if nm = [] then ("param".toList) ++ natToStr i
            else nm)))) := by
      rw [formatCompItem]
      dsimp only [AbiParam.name, AbiParam.type, AbiParam.components]
      rw [if_pos ⟨hcontains, rfl⟩, formatTupleType_tuple]
      simp
    have hexp : expandedCompType (.mk (("tuple".toList) ++ sfx) nm (some cs)) =
        (('(' :: joinSep (", ".toList) (formatComps cs 0)) ++ [')']) ++ sfx := by
      rw [expandedCompType]
      dsimp only [AbiParam.type, AbiParam.components]
      rw [if_pos ⟨hcontains, rfl⟩, formatTupleType_tuple]
    have hdn : displayName (.mk (("tuple".toList) ++ sfx) nm (some cs)) i =
        (if nm = [] then ("param".toList) ++ natToStr i else nm) := rfl
    have hns : ∀ c ∈ sfx ++ (' ' :: (if nm = [] then ("param".toList) ++ natToStr i
        else nm)), c ≠ '(' ∧ c ≠ ')' ∧ c ≠ ',' := by
      intro c hcc
      rw [List.mem_append, List.mem_cons] at hcc
      rcases hcc with hcc | rfl | hcc
      · rcases hsfx with rfl | ⟨ds, hds, rfl⟩
        · simp at hcc
        · rw [show ('[' :: ds) ++ [']'] = '[' :: (ds ++ [']']) from rfl, List.mem_cons,
            List.mem_append, List.mem_singleton] at hcc
          rcases hcc with rfl | hcc | rfl
          · exact ⟨by decide, by decide, by decide⟩
          · exact isDigitChar_facts2 (List.all_eq_true.mp hds c hcc)
          · exact ⟨by decide, by decide, by decide⟩
      · exact ⟨by decide, by decide, by decide⟩
      · have := identChar_facts (hpnc c hcc)
        exact ⟨this.1, this.2.1, this.2.2.1⟩
    have hscan : itemScan (('(' :: joinSep (", ".toList) (formatComps cs 0)) ++
        (')' :: (sfx ++ (' ' :: (if nm = [] then ("param".toList) ++ natToStr i
          else nm))))) 0 = some 0 := by
      rw [List.cons_append, itemScan, if_pos rfl]
      rw [itemScan_append (itemScan_shift hbal)]
      rw [itemScan, if_neg (by decide), if_pos rfl, if_neg (by decide)]
      simpa using itemScan_all_nonstructural hns (0 + 1 - 1)
    have hhead : ∀ c, (('(' :: joinSep (", ".toList) (formatComps cs 0)) ++
        (')' :: (sfx ++ (' ' :: (if nm = [] then ("param".toList) ++ natToStr i
          else nm))))).head? = some c → isWsChar c = false := by
      intro c hcc
      rw [List.cons_append, List.head?_cons] at hcc
      injection hcc with hcc
      subst hcc
      decide
    have hlast : ∀ c, (('(' :: joinSep (", ".toList) (formatComps cs 0)) ++
        (')' :: (sfx ++ (' ' :: (if nm = [] then ("param".toList) ++ natToStr i
          else nm))))).getLast? = some c → isWsChar c = false := by
      intro c hcc
      rw [List.getLast?_append_of_ne_nil _ (by simp),
        show (')' :: (sfx ++ (' ' :: (if nm = [] then ("param".toList) ++ natToStr i
          else nm)))) = [')'] ++ (sfx ++ (' ' :: (if nm = [] then ("param".toList) ++
            natToStr i else nm))) from rfl,
        List.getLast?_append_of_ne_nil _ (by simp),
        List.getLast?_append_of_ne_nil _ (by simp),
        show (' ' :: (if nm = [] then ("param".toList) ++ natToStr i else nm)) =
          [' '] ++ (if nm = [] then ("param".toList) ++ natToStr i else nm) from rfl,
        List.getLast?_append_of_ne_nil _ hpn.2.1] at hcc
      exact (identChar_facts (hpnc c (getLast?_mem_str hcc))).2.2.2.2.2
    refine ⟨?_, ?_⟩
    · rw [hitem]
      exact ⟨hscan, by simp, hhead, hlast⟩
    · rw [hitem, hexp, hdn]
      exact parseTypeAndName_tuple hbal hsfx hpn.1 hpn.2.1

theorem formatComps_parse {cs : List AbiParam} (h : WfComps cs) :
    ∀ j, (formatComps cs j).map parseTypeAndName = expectedFields cs j := by
  induction cs with
  | nil => intro j; rfl
  | cons c rest ih =>
    intro j
    rw [formatComps_cons, List.map_cons, (wfcomp_item (h c (by simp)) j).2, expectedFields,
      ih (fun x hx => h x (by simp [hx])) (j + 1)]

theorem parseTypeSignature_formatTupleType {nm : Str} {cs : List AbiParam}
    (h : WfComps cs) :
    parseTypeSignature (formatTupleType (.mk ("tuple".toList) nm (some cs))) =
      expectedFields cs 0 := by
  have hitems : ∀ s ∈ formatComps cs 0, ItemOk s := by
    intro s hs
    obtain ⟨d, hd, k, rfl⟩ := mem_formatComps cs 0 s hs
    exact (wfcomp_item (h d hd) k).1
  have hftt : formatTupleType (.mk ("tuple".toList) nm (some cs)) =
      ('(' :: joinSep (", ".toList) (formatComps cs 0)) ++ [')'] := by
    have := formatTupleType_tuple [] nm cs
    simpa using this
  rw [hftt, parseTypeSignature]
  rw [if_neg (by
    push_neg
    refine ⟨by simp, ?_, ?_⟩
    · simp [startsWithStr, List.isPrefixOf]
    · simp [endsWithStr, List.isPrefixOf])]
  rw [show ((('(' :: joinSep (", ".toList) (formatComps cs 0)) ++ [')']).drop 1).dropLast =
    joinSep (", ".toList) (formatComps cs 0) by simp]
  rw [trimStr_eq_self (joinSep_head_not_ws hitems) (joinSep_last_not_ws hitems)]
  cases cs with
  | nil => rfl
  | cons c rest =>
    have hfirst : ItemOk (formatCompItem c 0) := (wfcomp_item (h c (by simp)) 0).1
    rw [if_neg (by
      rw [formatComps_cons]
      exact joinSep_ne_nil hfirst.2.1)]
    rw [formatComps_cons] at hitems ⊢
    rw [show (joinSep (", ".toList) (formatCompItem c 0 :: formatComps rest (0 + 1))) =
      [] ++ joinSep (", ".toList) (formatCompItem c 0 :: formatComps rest (0 + 1)) from rfl,
      splitTopLevel_items _ hitems [] (Or.inl rfl) []]
    rw [List.nil_append, ← formatComps_cons]
    exact formatComps_parse h 0

/-- C2: for every well-formed component list, expanding a tuple parameter
with `formatTupleType` and re-parsing the expanded signature with
`parseTypeSignature` recovers exactly the ordered `(type, name)` field list
used to produce it, and `linearizeAbi` of such a tuple input yields a single
row whose stored type string parses back to that same field list. -/
theorem linearize_tuple_roundtrip {nm : Str} {cs : List AbiParam} (h : WfComps cs) :
    parseTypeSignature (formatTupleType (.mk ("tuple".toList) nm (some cs))) =
      expectedFields cs 0 ∧
    (linearizeAbi [.mk ("tuple".toList) nm (some cs)]).map
        (fun r => parseTypeSignature r.type) = [expectedFields cs 0] := by
  refine ⟨parseTypeSignature_formatTupleType h, ?_⟩
  rw [linearizeAbi, processInputs, processInputs]
  dsimp only [AbiParam.name, AbiParam.type, AbiParam.components]
  rw [List.map_cons, List.map_nil]
  dsimp only
  rw [if_pos (show containsSub ("tuple".toList) ("tuple".toList) = true by decide)]
  rw [parseTypeSignature_formatTupleType h]

/-- C2 counterexample: a component whose tuple type carries two array
suffixes (`tuple[][]`) does not round-trip — `parseTypeAndName` stops at the
first `]`, so the re-parsed field is `("(uint256 a)[]", "[] x")` while the
field used to produce the signature was `("(uint256 a)[][]", "x")`. -/
theorem linearize_tuple_roundtrip_cex :
    parseTypeSignature (formatTupleType (.mk ("tuple".toList) ("t".toList)
        (some [.mk ("tuple[][]".toList) ("x".toList)
          (some [.mk ("uint256".toList) ("a".toList) none])]))) =
      [("(uint256 a)[]".toList, "[] x".toList)] ∧
    expectedFields [.mk ("tuple[][]".toList) ("x".toList)
          (some [.mk ("uint256".toList) ("a".toList) none])] 0 =
      [("(uint256 a)[][]".toList, "x".toList)] ∧
    parseTypeSignature (formatTupleType (.mk ("tuple".toList) ("t".toList)
        (some [.mk ("tuple[][]".toList) ("x".toList)
          (some [.mk ("uint256".toList) ("a".toList) none])]))) ≠
      expectedFields [.mk ("tuple[][]".toList) ("x".toList)
          (some [.mk ("uint256".toList) ("a".toList) none])] 0 :=
  ⟨rfl, rfl, by decide⟩

theorem linearize_tuple_roundtrip_witness :
    parseTypeSignature (formatTupleType (.mk ("tuple".toList) ("point".toList)
        (some [.mk ("uint256".toList) ("a".toList) none,
               .mk ("tuple".toList) [] (some [.mk ("address".toList) ("owner".toList) none])]))) =
      expectedFields [.mk ("uint256".toList) ("a".toList) none,
               .mk ("tuple".toList) [] (some [.mk ("address".toList) ("owner".toList) none])] 0 ∧
    (linearizeAbi [.mk ("tuple".toList) ("point".toList)
        (some [.mk ("uint256".toList) ("a".toList) none,
               .mk ("tuple".toList) [] (some [.mk ("address".toList) ("owner".toList) none])])]).map
        (fun r => parseTypeSignature r.type) =
      [expectedFields [.mk ("uint256".toList) ("a".toList) none,
               .mk ("tuple".toList) [] (some [.mk ("address".toList) ("owner".toList) none])] 0] :=
  linearize_tuple_roundtrip (by
    intro c hc
    simp only [List.mem_cons, List.mem_singleton] at hc
    rcases hc with rfl | rfl | hf
    · exact WfComp.leaf _ _ (by decide) (by decide) (by decide) (by decide)
    · exact WfComp.tuple [] [] _ (Or.inl rfl) (by decide) (by decide) (by
        intro d hd
        simp only [List.mem_singleton] at hd
        subst hd
        exact WfComp.leaf _ _ (by decide) (by decide) (by decide) (by decide))
    · exact absurd hf (by simp))

/-- C3: on a tuple value given as a serialized JSON object and a type
signature that `parseTypeSignature` resolves to a nonempty field list,
`formatTupleWithStructure` emits `(v1, ..., vn)` built by the field loop in
declared field order; in that loop a field whose name is empty or absent
from the object yields the placeholder `...`, a present `string`-typed leaf
is wrapped in double quotes (after stripping edge quotes), and a present
field with a parenthesized tuple type recurses through
`formatTupleWithStructure` on the nested value. -/
theorem formatTupleWithStructure_spec (fuel : Nat) (s : Str)
    (fields : List (Str × JVal)) (sig : Str)
    (hparse : jsonParse s = some (.jobj fields))
    (hsig : parseTypeSignature sig ≠ []) :
    formatTupleWithStructure (fuel + 1) (.jstr s) sig =
      (match formatStructFields fuel fields (parseTypeSignature sig) with
       | none => none
       | some vs => some (('(' :: joinSep (", ".toList) vs) ++ [')'])) ∧
    (∀ ty nm rest, formatStructFields (fuel + 1) fields ((ty, nm) :: rest) =
      (match formatStructField fuel fields ty nm with
       | none => none
       | some entry =>
         match formatStructFields fuel fields rest with
         | none => none
         | some entries => some (entry :: entries))) ∧
    (∀ ty nm, nm = [] ∨ objLookup fields nm = none →
      formatStructField (fuel + 1) fields ty nm = some ("...".toList)) ∧
    (∀ nm v, nm ≠ [] → objLookup fields nm = some (.jstr v) →
      formatStructField (fuel + 1) fields ("string".toList) nm =
        some (('"' :: stripEdgeQuotes v) ++ ['"'])) ∧
    (∀ ty nm val r, nm ≠ [] → objLookup fields nm = some val →
      startsWithStr ("(".toList) ty = true → endsWithStr (")".toList) ty = true →
      formatTupleWithStructure fuel val ty = some r →
      formatStructField (fuel + 1) fields ty nm = some r) := by
  refine ⟨?_, ?_, ?_, ?_, ?_⟩
  · rw [formatTupleWithStructure]
    dsimp only
    rw [hparse]
    dsimp only
    rw [if_neg hsig]
  · intro ty nm rest
    rw [formatStructFields]
  · intro ty nm h
    rw [formatStructField, if_pos (by
      rcases h with h | h
      · exact Or.inl h
      · exact Or.inr (by simp [h]))]
  · intro nm v hne hl
    rw [formatStructField, if_neg (by simp [hne, hl]), hl]
    dsimp only
    rw [if_neg (by decide), if_pos rfl]
  · intro ty nm val r hne hl hsw hew hr
    rw [formatStructField, if_neg (by simp [hne, hl]), hl]
    dsimp only
    rw [if_pos ⟨hsw, hew⟩, hr]

/-- C3 counterexample: when the parsed field list is empty the function
does not emit the per-field form — for value `{"a": "1"}` and signature
`()` (zero declared fields) it falls back to the `formatTuple` heuristic
and returns `(1)` built from the object's own keys, not `()`. -/
theorem formatTupleWithStructure_cex :
    parseTypeSignature ("()".toList) = [] ∧
    formatTupleWithStructure 5 (.jobj [("a".toList, .jstr "1".toList)]) ("()".toList) =
      some "(1)".toList :=
  ⟨rfl, rfl⟩

theorem formatTupleWithStructure_spec_witness :
    jsonParse ("\x7b\"a\":\"1\"\x7d".toList) = some (.jobj [("a".toList, .jstr "1".toList)]) ∧
    parseTypeSignature ("(uint256 a)".toList) ≠ [] ∧
    formatTupleWithStructure (4 + 1) (.jstr ("\x7b\"a\":\"1\"\x7d".toList))
        ("(uint256 a)".toList) = some ("(1)".toList) := by
  refine ⟨rfl, by decide, ?_⟩
  rw [(formatTupleWithStructure_spec 4 ("\x7b\"a\":\"1\"\x7d".toList)
      [("a".toList, .jstr "1".toList)] ("(uint256 a)".toList) rfl (by decide)).1]
  rfl
